import Mathlib

/-!
Verification development for the BARNI smooth-peak-analysis (SPA) pipeline.

The Python source is embedded shallowly over exact arithmetic (`ℚ` for the
pure numerical loops, `ℝ` for the parts that involve transcendental
functions).  Library calls (`bisect.bisect_left`, `scipy.linalg.solve_banded`,
`scipy.optimize.nnls`) are modelled by their documented contracts; the two
compiled kernels of the `_barni` extension, whose sources are not part of the
repository, are modelled from the specification and marked as such.
-/

namespace Barni

/-! ## Python error kinds raised by the embedded fragments -/

/-- Error kinds of the embedded Python code: `TypeError` (indexing an object
without an item accessor), `ValueError` (numpy broadcast failure, explicit
raise statements), and a generic `Exception`. -/
inductive PyErr where
  | typeError : PyErr
  | valueError : PyErr
  | exception : PyErr
deriving DecidableEq, Repr

/-! ## EnergyScale and Spectrum (`src/barni/_bins.py`, `src/barni/_spectrum.py`) -/

/-- Embedding of `EnergyScale` (`_bins.py`): a bag of bin edges. -/
structure EnergyScaleQ where
  edges : List ℚ
deriving DecidableEq, Repr

/-- Python `bisect.bisect_left` on a sorted list, by its documented contract:
the leftmost insertion position of `x`, i.e. the number of elements strictly
below `x` (the two agree on the sorted inputs `EnergyScale` holds). -/
def bisectLeft (edges : List ℚ) (x : ℚ) : ℕ :=
  edges.countP (fun e => decide (e < x))

/-- Embedding of `EnergyScale.findBin` (`_bins.py` lines 116-119):
`bisect.bisect_left(self._edges, energy) - 1`.  The result can be `-1`. -/
def findBinQ (es : EnergyScaleQ) (energy : ℚ) : ℤ :=
  (bisectLeft es.edges energy : ℤ) - 1

/-- Python `int()` applied to a rational: truncation toward zero. -/
def pyInt (c : ℚ) : ℤ :=
  if 0 ≤ c then ⌊c⌋ else ⌈c⌉

/-- Embedding of `EnergyScale.findEnergy` (`_bins.py` lines 132-135):
`j = int(i); f = i - j; edges[j]*(1-f) + f*edges[j+1]`.
Out-of-range indexing raises in Python, hence the `Option`. -/
def findEnergyQ (es : EnergyScaleQ) (c : ℚ) : Option ℚ :=
  let j := pyInt c
  let f : ℚ := c - (j : ℚ)
  if 0 ≤ j ∧ j.toNat + 1 < es.edges.length then
    some (es.edges.getD j.toNat 0 * (1 - f) + f * es.edges.getD (j.toNat + 1) 0)
  else none

/-- Embedding of `Spectrum` (`_spectrum.py`): counts plus an energy scale. -/
structure SpectrumQ where
  counts : List ℚ
  energyScale : EnergyScaleQ
  livetime : ℚ
  realtime : ℚ
deriving DecidableEq, Repr

/-- Embedding of `Spectrum.__init__` (`_spectrum.py` lines 68-75): the constructor stores
its arguments unchanged; its body contains no validation and no raise
statement, hence it always succeeds. -/
def mkSpectrum (counts : List ℚ) (es : EnergyScaleQ) : Except PyErr SpectrumQ :=
  .ok { counts := counts, energyScale := es, livetime := 1, realtime := 1 }

/-- Numpy slice `a[start::2]` for a list: every other element. -/
def everyOther : List ℚ → List ℚ
  | [] => []
  | [a] => [a]
  | a :: _ :: rest => a :: everyOther rest

/-- Numpy elementwise `+` with 1-d broadcasting: equal lengths add pairwise,
a length-1 operand broadcasts, anything else raises `ValueError`. -/
def broadcastAdd (a b : List ℚ) : Except PyErr (List ℚ) :=
  if a.length = b.length then .ok (List.zipWith (· + ·) a b)
  else if a.length = 1 then .ok (b.map (fun x => a.headD 0 + x))
  else if b.length = 1 then .ok (a.map (fun x => x + b.headD 0))
  else .error .valueError

/-- Subscripting an `EnergyScale` object: `EnergyScale` defines no
`__getitem__` (`_bins.py` lines 129-130 are commented out), so Python raises
`TypeError`. -/
def esSubscript (_es : EnergyScaleQ) : Except PyErr (List ℚ) :=
  .error .typeError

/-- Embedding of `Spectrum.downsample` (`_spectrum.py` lines 95-110): first the strided
counts are added (`counts[0::2] + counts[1::2]`, line 100), then the energy
scale object is subscripted (line 103). -/
def downsampleQ (s : SpectrumQ) : Except PyErr SpectrumQ := do
  let c ← broadcastAdd (everyOther s.counts) (everyOther s.counts.tail)
  let e ← esSubscript s.energyScale
  .ok { counts := c, energyScale := ⟨e⟩, livetime := s.livetime, realtime := s.realtime }

/-- Embedding of `SmoothPeakAnalysis.analyze` (`_spa.py` lines 470-474): with
`downsample=True` the sample is downsampled before anything else. -/
def analyzeSample (downsample : Bool) (s : SpectrumQ) : Except PyErr SpectrumQ :=
  if downsample then downsampleQ s else .ok s

/-! ## Peaks (`src/barni/_architecture.py`) -/

/-- Embedding of `Peak` (`_architecture.py` lines 156-171):
`(energy, intensity, baseline, width)` with `width` defaulting to 0. -/
structure PeakQ where
  energy : ℚ
  intensity : ℚ
  baseline : ℚ
  width : ℚ
deriving DecidableEq, Repr

/-- Candidate peak of the proposer (`_spa.py` lines 116-118): a `Peak` whose
`channel` attribute has been set. -/
structure CPeak where
  channel : ℚ
  energy : ℚ
  intensity : ℚ
  baseline : ℚ
deriving DecidableEq, Repr

/-- Placeholder used for list accesses that the loop structure keeps in
range (Python would raise `IndexError` outside that range). -/
def cDummy : CPeak := ⟨0, 0, 0, 0⟩

/-! ## The merge pass of `getInitialPeaks` (`src/barni/_spa.py` lines 127-158)

The Python code is a pair of nested `while` loops over the candidate list
`potential`; they are embedded with an explicit fuel argument that the
wrappers instantiate large enough for the loops to run to completion. -/

/-- Inner `while` loop of the merge pass (`_spa.py` lines 139-154).  While
`potential[j].energy < e`, the current candidate `p1` is merged with
`p2 = potential[i + 1]` (the index `i` is fixed during the loop) by the
intensity-weighted average with `f = p1.intensity/(p1.intensity+p2.intensity)`,
the window end `e` is recomputed from the merged energy, and `j` advances.
In every reachable state `i + 1 ≤ j`, so inside the loop body
`potential[i+1]` exists; `cDummy` is never read. -/
def mergeInner (res : ℚ → ℚ) (potential : List CPeak) (i : ℕ) :
    ℕ → CPeak → ℚ → ℕ → CPeak × ℕ
  | 0, p1, _, j => (p1, j)
  | fuel + 1, p1, e, j =>
    match potential[j]? with
    | none => (p1, j)
    | some pj =>
      if pj.energy < e then
        let p2 := potential.getD (i + 1) cDummy
        let f := p1.intensity / (p1.intensity + p2.intensity)
        let channel := f * p1.channel + (1 - f) * p2.channel
        let energy := f * p1.energy + (1 - f) * p2.energy
        let intensity := f * p1.intensity + (1 - f) * p2.intensity
        let p1' : CPeak := ⟨channel, energy, intensity, 0⟩
        let e' := energy + res energy * (47 / 20)
        mergeInner res potential i fuel p1' e' (j + 1)
      else (p1, j)

/-- Outer `while` loop of the merge pass (`_spa.py` lines 129-156): skip
candidates below the `lld` energy, otherwise run the inner loop and append
the merged candidate; the outer index jumps to the final window position. -/
def mergeOuter (res : ℚ → ℚ) (lld : ℚ) (potential : List CPeak) :
    ℕ → ℕ → List CPeak → List CPeak
  | 0, _, acc => acc
  | fuel + 1, i, acc =>
    match potential[i]? with
    | none => acc
    | some p1 =>
      if p1.energy < lld then mergeOuter res lld potential fuel (i + 1) acc
      else
        let e := p1.energy + res p1.energy * (47 / 20)
        let r := mergeInner res potential i potential.length p1 e (i + 1)
        mergeOuter res lld potential fuel r.2 (acc ++ [r.1])

/-- The merge pass of `getInitialPeaks` (`_spa.py` lines 127-158), with the
sensor resolution function `res` passed as a parameter. -/
def mergePeaks (res : ℚ → ℚ) (lld : ℚ) (potential : List CPeak) : List CPeak :=
  mergeOuter res lld potential (potential.length + 1) 0 []

/-- Formalisation of the CLAIMED merge pass, written from the claim text:
identical to `mergeInner` except that the current candidate is combined with
`potential[j]`, the candidate the advancing window pointer examines. -/
def mergeInnerClaim (res : ℚ → ℚ) (potential : List CPeak) :
    ℕ → CPeak → ℚ → ℕ → CPeak × ℕ
  | 0, p1, _, j => (p1, j)
  | fuel + 1, p1, e, j =>
    match potential[j]? with
    | none => (p1, j)
    | some pj =>
      if pj.energy < e then
        let p2 := pj
        let f := p1.intensity / (p1.intensity + p2.intensity)
        let channel := f * p1.channel + (1 - f) * p2.channel
        let energy := f * p1.energy + (1 - f) * p2.energy
        let intensity := f * p1.intensity + (1 - f) * p2.intensity
        let p1' : CPeak := ⟨channel, energy, intensity, 0⟩
        let e' := energy + res energy * (47 / 20)
        mergeInnerClaim res potential fuel p1' e' (j + 1)
      else (p1, j)

/-- Outer loop of the claimed merge pass. -/
def mergeOuterClaim (res : ℚ → ℚ) (lld : ℚ) (potential : List CPeak) :
    ℕ → ℕ → List CPeak → List CPeak
  | 0, _, acc => acc
  | fuel + 1, i, acc =>
    match potential[i]? with
    | none => acc
    | some p1 =>
      if p1.energy < lld then mergeOuterClaim res lld potential fuel (i + 1) acc
      else
        let e := p1.energy + res p1.energy * (47 / 20)
        let r := mergeInnerClaim res potential potential.length p1 e (i + 1)
        mergeOuterClaim res lld potential fuel r.2 (acc ++ [r.1])

/-- The merge pass as the claim describes it. -/
def mergePeaksClaim (res : ℚ → ℚ) (lld : ℚ) (potential : List CPeak) : List CPeak :=
  mergeOuterClaim res lld potential (potential.length + 1) 0 []

/-- Amended description of the inner merge loop: the merge partner is the
fixed candidate right after the window start, passed explicitly as `next0`;
the window condition still examines `potential[j]`. -/
def mergeInnerAmended (res : ℚ → ℚ) (potential : List CPeak) (next0 : CPeak) :
    ℕ → CPeak → ℚ → ℕ → CPeak × ℕ
  | 0, p1, _, j => (p1, j)
  | fuel + 1, p1, e, j =>
    match potential[j]? with
    | none => (p1, j)
    | some pj =>
      if pj.energy < e then
        let f := p1.intensity / (p1.intensity + next0.intensity)
        let channel := f * p1.channel + (1 - f) * next0.channel
        let energy := f * p1.energy + (1 - f) * next0.energy
        let intensity := f * p1.intensity + (1 - f) * next0.intensity
        let p1' : CPeak := ⟨channel, energy, intensity, 0⟩
        let e' := energy + res energy * (47 / 20)
        mergeInnerAmended res potential next0 fuel p1' e' (j + 1)
      else (p1, j)

/-- Outer loop of the amended merge pass: the fixed merge partner for a group
starting at `i` is `potential[i+1]` (irrelevant when `i+1` is out of range,
because then the window is empty). -/
def mergeOuterAmended (res : ℚ → ℚ) (lld : ℚ) (potential : List CPeak) :
    ℕ → ℕ → List CPeak → List CPeak
  | 0, _, acc => acc
  | fuel + 1, i, acc =>
    match potential[i]? with
    | none => acc
    | some p1 =>
      if p1.energy < lld then mergeOuterAmended res lld potential fuel (i + 1) acc
      else
        let e := p1.energy + res p1.energy * (47 / 20)
        let r := mergeInnerAmended res potential (potential.getD (i + 1) cDummy)
          potential.length p1 e (i + 1)
        mergeOuterAmended res lld potential fuel r.2 (acc ++ [r.1])

/-- The merge pass as amended: every merge in a group combines with the fixed
candidate `potential[i+1]`. -/
def mergePeaksAmended (res : ℚ → ℚ) (lld : ℚ) (potential : List CPeak) : List CPeak :=
  mergeOuterAmended res lld potential (potential.length + 1) 0 []

/-! ## `addNeighborPeaks` (`src/barni/_spa.py` lines 179-200) -/

/-- Embedding of `addNeighborPeaks(peaks0, sensor)` (`_spa.py` lines 179-200): one output
peak per `i < 3·len(peaks0)`, built from `p = peaks0[floor(i/3)]` with energy
offset `-σ(p.energy)`, `0`, `+σ(p.energy)` according to `i % 3`. -/
def addNeighborPeaksQ (res : ℚ → ℚ) (peaks0 : List PeakQ) : List PeakQ :=
  (List.range (peaks0.length * 3)).map fun i =>
    let j := i / 3
    let p := peaks0.getD j ⟨0, 0, 0, 0⟩
    let k := i % 3
    let w : ℚ := if k = 0 then -(res p.energy) else if k = 1 then 0 else res p.energy
    ⟨p.energy + w, p.intensity, p.baseline, 0⟩

/-! ## Banded tridiagonal assemblies (`_spa.py` lines 262-276 and
`_smoothing.py` lines 80-110) -/

/-- The three rows of a banded `(3, n)` array as used by the source:
row 0 holds the entries above the diagonal, row 1 the diagonal, row 2 the
entries below the diagonal. -/
structure TriBand where
  u : ℕ → ℚ
  d : ℕ → ℚ
  l : ℕ → ℚ

/-- The per-channel coefficient of `solve` (`_spa.py` lines 268-271):
`c = 0` when `i <= lld`, else `c = i * mu`. -/
def cCoef (lld : ℤ) (mu : ℚ) (i : ℕ) : ℚ :=
  if (i : ℤ) ≤ lld then 0 else (i : ℚ) * mu

/-- The assembly loop of `solve` (`_spa.py` lines 264-276).  For
`i in range(0, n1-1)`: `A11[1,i] = 1 + c + c2`, `A11[0,i] = -c` (upper),
`A11[2,i+1] = -c` (lower), carrying `c2 = c`; after the loop
`A11[1,-1] = 1 - c2`.  `fuel` only bounds the iteration count; the wrapper
passes enough for the loop to finish. -/
def solveTriLoop (n1 : ℕ) (lld : ℤ) (mu : ℚ) :
    ℕ → ℕ → ℚ → TriBand → TriBand
  | 0, _, c2, A => ⟨A.u, Function.update A.d (n1 - 1) (1 - c2), A.l⟩
  | fuel + 1, i, c2, A =>
    if i < n1 - 1 then
      let c := cCoef lld mu i
      solveTriLoop n1 lld mu fuel (i + 1) c
        ⟨Function.update A.u i (-c),
         Function.update A.d i (1 + c + c2),
         Function.update A.l (i + 1) (-c)⟩
    else ⟨A.u, Function.update A.d (n1 - 1) (1 - c2), A.l⟩

/-- The banded array `A11` that `solve` assembles (`_spa.py` lines 262-276),
starting from `np.zeros((3, n1))`. -/
def assembleA11 (n1 : ℕ) (lld : ℤ) (mu : ℚ) : TriBand :=
  solveTriLoop n1 lld mu n1 0 0 ⟨fun _ => 0, fun _ => 0, fun _ => 0⟩

/-- The assembly loop of `smooth` for a constant smoothing factor
(`_smoothing.py` lines 84-96).  For `i in range(0, n-1)`: `A[1,i] = 1+c+c2`,
`A[0,i+1] = -c`, `A[2,i] = -c` with `c = lmbda`, carrying `c2 = c`; after the
loop `A[1,-1] = 1 + c2`. -/
def smoothLoop (n : ℕ) (lam : ℚ) :
    ℕ → ℕ → ℚ → TriBand → TriBand
  | 0, _, c2, A => ⟨A.u, Function.update A.d (n - 1) (1 + c2), A.l⟩
  | fuel + 1, i, c2, A =>
    if i < n - 1 then
      let c := lam
      smoothLoop n lam fuel (i + 1) c
        ⟨Function.update A.u (i + 1) (-c),
         Function.update A.d i (1 + c + c2),
         Function.update A.l i (-c)⟩
    else ⟨A.u, Function.update A.d (n - 1) (1 + c2), A.l⟩

/-- The banded array that `smooth` assembles for a constant `lmbda`
(`_smoothing.py` lines 80-96), starting from `np.zeros((3, n))`. -/
def smoothBand (n : ℕ) (lam : ℚ) : TriBand :=
  smoothLoop n lam n 0 0 ⟨fun _ => 0, fun _ => 0, fun _ => 0⟩

/-- The square matrix represented by a banded array under the
`scipy.linalg.solve_banded((1, 1), ...)` convention used at
`_smoothing.py` line 110: `ab[0, j]` is the entry at `(j-1, j)`, `ab[1, j]`
the diagonal entry `(j, j)`, and `ab[2, j]` the entry at `(j+1, j)`. -/
def bandedMatrix (n : ℕ) (A : TriBand) : Matrix (Fin n) (Fin n) ℚ :=
  Matrix.of fun i j =>
    if (i : ℕ) = (j : ℕ) then A.d j
    else if (j : ℕ) = (i : ℕ) + 1 then A.u j
    else if (i : ℕ) = (j : ℕ) + 1 then A.l j
    else 0

/-- The square matrix represented by `solve`'s banded array `A11`
(`_spa.py` lines 262-276 together with `SolveAugmentedTridiag.solveUpper`,
`_math.py` lines 117-122, which reads `ab[0, 1:] = A11[0, :-1]`): row 0 entry
`i` is the entry at `(i, i+1)`, row 1 the diagonal, row 2 entry `i` the entry
at `(i, i-1)`. -/
def solveMatrix (n : ℕ) (A : TriBand) : Matrix (Fin n) (Fin n) ℚ :=
  Matrix.of fun i j =>
    if (i : ℕ) = (j : ℕ) then A.d i
    else if (j : ℕ) = (i : ℕ) + 1 then A.u i
    else if (i : ℕ) = (j : ℕ) + 1 then A.l i
    else 0

/-! ## The derivative scan of `getInitialPeaks` (`src/barni/_spa.py` lines 86-125) -/

/-- State of the scan loop: the running values of `current`, `prev`,
`rising` and the accumulated candidate list. -/
structure ScanState where
  current : ℚ
  prev : ℚ
  rising : Bool
  acc : List CPeak

/-- One iteration of the scan loop of `getInitialPeaks`
(`_spa.py` lines 93-125) at index `i`.  `sqrtFn` stands for `np.sqrt`.
The energy lookup `es.findEnergy(channel)` can raise, hence the `Except`. -/
def scanStep (es : EnergyScaleQ) (sqrtFn : ℚ → ℚ) (u b : List ℚ) (i : ℕ)
    (st : ScanState) : Except PyErr ScanState :=
  let nxt := u.getD i 0 - b.getD i 0
  if st.current = nxt then .ok { st with prev := st.current }
  else
    let tagged := st.rising ∧ nxt < st.current
    let rising' := if st.rising ∧ nxt < st.current then false
      else if ¬st.rising ∧ st.current < nxt then true else st.rising
    if tagged then
      let sig := st.current / sqrtFn (max (b.getD (i - 1) 0) 1)
      if 1 < sig then
        let p1 := max ((nxt + st.current) / 2) 0
        let p2 := max ((st.prev + st.current) / 2) 0
        let f := (1 / 2) * (p2 - p1) / (p2 + p1)
        let channel := (i : ℚ) - 1 + f
        match findEnergyQ es channel with
        | none => .error .exception
        | some energy =>
          let out : CPeak := ⟨channel, energy, st.current, 0⟩
          .ok { current := nxt, prev := st.current, rising := rising',
                acc := st.acc ++ [out] }
      else .ok { current := nxt, prev := st.current, rising := rising', acc := st.acc }
    else .ok { current := nxt, prev := st.current, rising := rising', acc := st.acc }

/-- The scan loop of `getInitialPeaks` (`_spa.py` lines 89-125), iterating
`scanStep` over `i in range(0, len(u))`. -/
def scanLoop (es : EnergyScaleQ) (sqrtFn : ℚ → ℚ) (u b : List ℚ) :
    ℕ → ℕ → ScanState → Except PyErr ScanState
  | 0, _, st => .ok st
  | fuel + 1, i, st =>
    if i < u.length then
      match scanStep es sqrtFn u b i st with
      | .error e => .error e
      | .ok st' => scanLoop es sqrtFn u b fuel (i + 1) st'
    else .ok st

/-- The candidate list produced by the derivative scan
(`_spa.py` lines 86-125): `current` starts at `u[0] - b[0]`, `prev = current`,
`rising = False`. -/
def scanPeaks (es : EnergyScaleQ) (sqrtFn : ℚ → ℚ) (u b : List ℚ) :
    Except PyErr (List CPeak) :=
  let c0 := u.getD 0 0 - b.getD 0 0
  (scanLoop es sqrtFn u b u.length 0 ⟨c0, c0, false, []⟩).map (·.acc)

/-- Embedding of `getInitialPeaks` (`_spa.py` lines 80-158): the derivative scan followed
by the merge pass. -/
def getInitialPeaksQ (es : EnergyScaleQ) (sqrtFn : ℚ → ℚ) (res : ℚ → ℚ)
    (lld : ℚ) (u b : List ℚ) : Except PyErr (List CPeak) :=
  (scanPeaks es sqrtFn u b).map (mergePeaks res lld)

/-! ## The augmented tridiagonal solver
(`src/barni/_spa.py` lines 239-296, `src/barni/_math.py` lines 53-122)

The two elimination kernels live in the compiled `_barni` extension whose C
source is not part of the repository; they are modelled from the
specification.  `scipy.optimize.nnls` is modelled by letting the caller
supply its result, and `scipy.linalg.solve_banded((0, 1), ...)` by the
back-substitution it performs on a unit-free upper-bidiagonal system. -/

/-- Replace row `r` of a dense matrix-as-function. -/
def updRow (M : ℕ → ℕ → ℚ) (r : ℕ) (f : ℕ → ℚ) : ℕ → ℕ → ℚ :=
  fun r' c => if r' = r then f c else M r' c

/-- State of the augmented system held by `SolveAugmentedTridiag`
(`_math.py` lines 58-88): the banded `A11`, the dense blocks and both
right-hand sides. -/
structure AugState where
  band : TriBand
  A12 : ℕ → ℕ → ℚ
  A21 : ℕ → ℕ → ℚ
  A22 : ℕ → ℕ → ℚ
  B1 : ℕ → ℚ
  B2 : ℕ → ℚ

/-- Modelled from the spec: `_barni.reduce_tridiag` (the compiled kernel
called by `SolveAugmentedTridiag.reduceTridiag`, `_math.py` line 100) is not
in the repository; spec section 4.7 step 1 reduces the tridiagonal block to
an upper-bidiagonal with unit diagonal by forward Gaussian elimination,
propagating every row operation through `A12` and `B1`.  One step: divide
row `i` by its pivot, then subtract `l(i+1)` times it from row `i+1`. -/
def reduceStep (st : AugState) (i : ℕ) : AugState :=
  let piv := st.band.d i
  let u' := Function.update st.band.u i (st.band.u i / piv)
  let d' := Function.update st.band.d i 1
  let A12a := updRow st.A12 i (fun c => st.A12 i c / piv)
  let B1a := Function.update st.B1 i (st.B1 i / piv)
  let f := st.band.l (i + 1)
  let d'' := Function.update d' (i + 1) (d' (i + 1) - f * u' i)
  let l'' := Function.update st.band.l (i + 1) 0
  let A12b := updRow A12a (i + 1) (fun c => A12a (i + 1) c - f * A12a i c)
  let B1b := Function.update B1a (i + 1) (B1a (i + 1) - f * B1a i)
  ⟨⟨u', d'', l''⟩, A12b, st.A21, st.A22, B1b, st.B2⟩

/-- Modelled from the spec: the forward elimination loop of
`_barni.reduce_tridiag` over rows `0 .. n1-1` (`m` is the width of `A12`). -/
def reduceLoop (m : ℕ) : ℕ → ℕ → AugState → AugState
  | 0, _, st => st
  | fuel + 1, i, st => reduceLoop m fuel (i + 1) (reduceStep st i)

/-- Modelled from the spec: `_barni.zero_lower` (called by
`SolveAugmentedTridiag.zeroLower`, `_math.py` line 105) is not in the
repository; spec section 4.7 step 2 subtracts, for each reduced top row `i`,
the lower-block column entry times that row from the rows of `A21`, `A22`
and `B2`.  Row `i` of the reduced top block is
`(.. 1 at i, u(i) at i+1 .. | A12 row i | B1(i))`. -/
def zeroStep (st : AugState) (i : ℕ) (r : ℕ) : AugState :=
  let f := st.A21 r i
  let A21a := updRow st.A21 r (fun c =>
    if c = i then 0
    else if c = i + 1 then st.A21 r c - f * st.band.u i
    else st.A21 r c)
  let A22a := updRow st.A22 r (fun c => st.A22 r c - f * st.A12 i c)
  let B2a := Function.update st.B2 r (st.B2 r - f * st.B1 i)
  { st with A21 := A21a, A22 := A22a, B2 := B2a }

/-- Modelled from the spec: inner loop of `_barni.zero_lower` over the `m`
rows of the lower blocks. -/
def zeroRowLoop (m : ℕ) (i : ℕ) : ℕ → ℕ → AugState → AugState
  | 0, _, st => st
  | fuel + 1, r, st => zeroRowLoop m i fuel (r + 1) (zeroStep st i r)

/-- Modelled from the spec: outer loop of `_barni.zero_lower` over the top
rows `0 .. n1-1`. -/
def zeroLoop (m : ℕ) : ℕ → ℕ → AugState → AugState
  | 0, _, st => st
  | fuel + 1, i, st => zeroLoop m fuel (i + 1) (zeroRowLoop m i m 0 st)

/-- Sum of the entries of an `r × c` dense block, used by the
post-elimination check `np.isclose(self.A21.sum(), 0)`
(`_math.py` lines 107-108). -/
def matSum (r c : ℕ) (M : ℕ → ℕ → ℚ) : ℚ :=
  ∑ i ∈ Finset.range r, ∑ j ∈ Finset.range c, M i j

/-- Back-substitution performed by
`scipy.linalg.solve_banded((0, 1), ab, B1)` (`_math.py` lines 117-122) on an
upper-bidiagonal system: `x(i) = (b(i) - u(i) * x(i+1)) / d(i)`, with the
last row solved directly. -/
def backsub (n : ℕ) (dd uu bb : ℕ → ℚ) : ℕ → ℕ → ℚ
  | 0, i => bb i / dd i
  | fuel + 1, i =>
    if i + 1 < n then (bb i - uu i * backsub n dd uu bb fuel (i + 1)) / dd i
    else bb i / dd i

/-- A responsed peak as consumed by `solve` (`_spa.py` line 255): a peak
whose `response` attribute holds its response column. -/
structure RespPeak where
  energy : ℚ
  intensity : ℚ
  baseline : ℚ
  response : ℕ → ℚ

/-- The five shape checks of `SolveAugmentedTridiag.__init__`
(`_math.py` lines 68-80), on the shapes `solve` passes:
`A11 : 3 × n1`, `A12 : n1 × m`, `A21 : m × n1`, `A22 : m × m`,
`B1 : n1 × 1`, `B2 : m × 1`. -/
def augChecks (a11rows n1 a12rows a21cols a12cols a22cols b1rows b2rows a21rows a22rows : ℕ) :
    Prop :=
  a11rows = 3 ∧ n1 = a21cols ∧ a12cols = a22cols
    ∧ b1rows = a12rows ∧ b2rows = a21rows ∧ b2rows = a22rows

/-- The shape checks are decidable equalities of dimensions. -/
instance (a b c d e f g h i j : ℕ) : Decidable (augChecks a b c d e f g h i j) := by
  unfold augChecks
  infer_instance

/-- Embedding of `solve` (`_spa.py` lines 239-296) with the nnls result supplied as the
parameter `a` (`scipy.optimize.nnls`, `_math.py` line 112, modelled by its
contract).  Returns the continuum `C1`, the amplitudes `C2` and the output
peak list.  When `peaks` is empty, `S = np.zeros((n1, 1))`. -/
def spaSolve (n1 : ℕ) (counts : ℕ → ℚ) (peaks : List RespPeak) (lld : ℤ)
    (mu : ℚ) (res : ℚ → ℚ) (a : ℕ → ℚ) :
    Except PyErr ((ℕ → ℚ) × (ℕ → ℚ) × List PeakQ) :=
  let m := if peaks.isEmpty then 1 else peaks.length
  let S : ℕ → ℕ → ℚ := fun i j =>
    if peaks.isEmpty then 0
    else (peaks.getD j ⟨0, 0, 0, fun _ => 0⟩).response i
  let band := assembleA11 n1 lld mu
  let B1 : ℕ → ℚ := counts
  let A21 : ℕ → ℕ → ℚ := fun r c => S c r
  let A22 : ℕ → ℕ → ℚ := fun r c => ∑ k ∈ Finset.range n1, S k r * S k c
  let B2 : ℕ → ℚ := fun r => ∑ k ∈ Finset.range n1, S k r * B1 k
  if ¬ augChecks 3 n1 n1 n1 m m n1 m m m then .error .valueError
  else
    let st0 : AugState := ⟨band, S, A21, A22, B1, B2⟩
    let st1 := reduceLoop m n1 0 st0
    let st2 := zeroLoop m n1 0 st1
    if ¬ (matSum m n1 st2.A21 = 0) then .error .valueError
    else
      let C2 := a
      let B1' : ℕ → ℚ := fun i => st2.B1 i - ∑ j ∈ Finset.range m, st2.A12 i j * C2 j
      let C1 : ℕ → ℚ := fun i => backsub n1 st2.band.d st2.band.u B1' n1 i
      let peaksOut := (List.range peaks.length).map fun i =>
        let pk := peaks.getD i ⟨0, 0, 0, fun _ => 0⟩
        (⟨pk.energy, C2 i, 0, res pk.energy⟩ : PeakQ)
      .ok (C1, C2, peaksOut)

/-- The output peak list of a `spaSolve` result. -/
def solvePeaksOut (r : Except PyErr ((ℕ → ℚ) × (ℕ → ℚ) × List PeakQ)) :
    Option (List PeakQ) :=
  match r with
  | .ok t => some t.2.2
  | .error _ => none

/-- One entry of the continuum of a `spaSolve` result. -/
def solveBaselineAt (r : Except PyErr ((ℕ → ℚ) × (ℕ → ℚ) × List PeakQ))
    (i : ℕ) : Option ℚ :=
  match r with
  | .ok t => some (t.1 i)
  | .error _ => none

/-! ## Region-of-interest integration (`src/barni/_spa.py` lines 334-371)
and the sensor resolution (`src/barni/_sensor.py` lines 131-140), over `ℝ` -/

/-- A peak as consumed by `SmoothPeakResult.getRegionOfInterest`. -/
structure RPeak where
  energy : ℝ
  intensity : ℝ
  width : ℝ

/-- The two `continue` guards of `getRegionOfInterest`
(`_spa.py` lines 343-346): a peak is skipped when it lies more than four
widths beyond either end of the region. -/
def roiSkip (p : RPeak) (e1 e2 : ℝ) : Prop :=
  (p.energy > e2 ∧ (p.energy - e2) / p.width > 4) ∨
    (p.energy < e1 ∧ (e1 - p.energy) / p.width > 4)

/-- The contribution of one peak (`_spa.py` lines 348-350), with `math.erf`
passed as the parameter `er`:
`(t2 - t1) * intensity / 2` for `tk = erf((ek - energy)/width/sqrt 2)`. -/
noncomputable def roiContribution (er : ℝ → ℝ) (p : RPeak) (e1 e2 : ℝ) : ℝ :=
  (er ((e2 - p.energy) / p.width / Real.sqrt 2)
    - er ((e1 - p.energy) / p.width / Real.sqrt 2)) * p.intensity / 2

/-- The accumulated ROI intensity of `getRegionOfInterest`
(`_spa.py` lines 339-351). -/
noncomputable def roiIntensity (er : ℝ → ℝ) (peaks : List RPeak) (e1 e2 : ℝ) : ℝ :=
  peaks.foldl
    (fun acc p =>
      @ite _ (roiSkip p e1 e2) (Classical.propDecidable _) acc
        (acc + roiContribution er p e1 e2))
    0

/-- Embedding of `GaussianSensorModel.getResolution` (`_sensor.py` lines 131-140).  The
guard is Python's `np.any(energy) < 0`: `np.any` yields a boolean truth
value (nonzero test), which the comparison treats as the integer 0 or 1, so
the guard compares that integer with 0. -/
noncomputable def getResolutionModel (A B C energy : ℝ) : Except PyErr ℝ :=
  let anyTruthy : ℤ := @ite _ (energy ≠ 0) (Classical.propDecidable _) 1 0
  if anyTruthy < 0 then .error .exception
  else .ok ((A + B * energy) ^ C)

/-! ## Theorems -/

/-- The inner merge loop of the source recomputes `potential[i+1]` at every
iteration with `i` fixed, so it coincides with the loop that fixes the merge
partner up front. -/
theorem mergeInner_eq_amended (res : ℚ → ℚ) (potential : List CPeak) (i : ℕ) :
    ∀ fuel p1 e j,
      mergeInner res potential i fuel p1 e j =
        mergeInnerAmended res potential (potential.getD (i + 1) cDummy) fuel p1 e j
  | 0, _, _, _ => rfl
  | fuel + 1, p1, e, j => by
    simp only [mergeInner, mergeInnerAmended]
    cases potential[j]? with
    | none => rfl
    | some pj =>
      by_cases h : pj.energy < e
      · simp only [if_pos h]
        exact mergeInner_eq_amended res potential i fuel _ _ _
      · simp only [if_neg h]

/-- Outer-loop version of `mergeInner_eq_amended`. -/
theorem mergeOuter_eq_amended (res : ℚ → ℚ) (lld : ℚ) (potential : List CPeak) :
    ∀ fuel i acc,
      mergeOuter res lld potential fuel i acc =
        mergeOuterAmended res lld potential fuel i acc
  | 0, _, _ => rfl
  | fuel + 1, i, acc => by
    simp only [mergeOuter, mergeOuterAmended]
    cases potential[i]? with
    | none => rfl
    | some p1 =>
      by_cases h : p1.energy < lld
      · simp only [if_pos h]
        exact mergeOuter_eq_amended res lld potential fuel _ _
      · simp only [if_neg h, ← mergeInner_eq_amended res potential i]
        exact mergeOuter_eq_amended res lld potential fuel _ _

/-- C1 (amended): in the merge pass of `getInitialPeaks`, while the next
candidate in the window lies within `2.35·σ(currentEnergy)` of the current
merged centroid, the current merged candidate is combined — by the
intensity-weighted averages with `f = current.intensity /
(current.intensity + next.intensity)`, recomputing the window endpoint from
the merged energy after each merge — with the FIXED candidate
`potential[i+1]` just after the window start, not with the candidate the
advancing window pointer examines. -/
theorem mergePass_uses_fixed_second_candidate (res : ℚ → ℚ) (lld : ℚ)
    (potential : List CPeak) :
    mergePeaks res lld potential = mergePeaksAmended res lld potential :=
  mergeOuter_eq_amended res lld potential _ 0 []

/-- C1 counterexample: on three equal-intensity candidates at energies 100,
110, 120 with constant resolution 10, the source merge pass (which always
re-merges with `potential[i+1]`) produces the centroid 215/2, while the
claimed behaviour (merging with the candidate the window pointer examines)
would produce 225/2. -/
theorem mergePass_claim_cex :
    mergePeaks (fun _ => 10) 45 [⟨0, 100, 1, 0⟩, ⟨1, 110, 1, 0⟩, ⟨2, 120, 1, 0⟩]
        = [⟨3 / 4, 215 / 2, 1, 0⟩]
    ∧ mergePeaksClaim (fun _ => 10) 45 [⟨0, 100, 1, 0⟩, ⟨1, 110, 1, 0⟩, ⟨2, 120, 1, 0⟩]
        = [⟨5 / 4, 225 / 2, 1, 0⟩]
    ∧ mergePeaks (fun _ => 10) 45 [⟨0, 100, 1, 0⟩, ⟨1, 110, 1, 0⟩, ⟨2, 120, 1, 0⟩]
        ≠ mergePeaksClaim (fun _ => 10) 45 [⟨0, 100, 1, 0⟩, ⟨1, 110, 1, 0⟩, ⟨2, 120, 1, 0⟩] := by
  have h1 : mergePeaks (fun _ => 10) 45 [⟨0, 100, 1, 0⟩, ⟨1, 110, 1, 0⟩, ⟨2, 120, 1, 0⟩]
      = [⟨3 / 4, 215 / 2, 1, 0⟩] := by
    norm_num [mergePeaks, mergeOuter, mergeInner, cDummy, CPeak.mk.injEq]
  have h2 : mergePeaksClaim (fun _ => 10) 45 [⟨0, 100, 1, 0⟩, ⟨1, 110, 1, 0⟩, ⟨2, 120, 1, 0⟩]
      = [⟨5 / 4, 225 / 2, 1, 0⟩] := by
    norm_num [mergePeaksClaim, mergeOuterClaim, mergeInnerClaim, CPeak.mk.injEq]
  refine ⟨h1, h2, ?_⟩
  rw [h1, h2]
  intro h
  have := List.head_eq_of_cons_eq h
  simp only [CPeak.mk.injEq] at this
  norm_num at this

/-- C8 (amended): the `Spectrum` constructor performs no shape validation at
all; it stores any counts list and any energy scale unchanged and never
raises, so the invariant `counts.length == edges.length - 1` holds only when
the caller already supplies matching arrays. -/
theorem spectrum_ctor_unchecked (counts : List ℚ) (es : EnergyScaleQ) :
    mkSpectrum counts es = .ok ⟨counts, es, 1, 1⟩ :=
  rfl

/-- C8 counterexample: a `Spectrum` with 5 counts and 3 edges is constructed
without any error, violating the claimed invariant `counts.length =
edges.length - 1`. -/
theorem spectrum_ctor_claim_cex :
    mkSpectrum [0, 0, 0, 0, 0] ⟨[0, 1, 2]⟩ =
      .ok ⟨[0, 0, 0, 0, 0], ⟨[0, 1, 2]⟩, 1, 1⟩
    ∧ ([0, 0, 0, 0, 0] : List ℚ).length ≠ ([0, 1, 2] : List ℚ).length - 1 :=
  ⟨rfl, by decide⟩

/-- C9: `addNeighborPeaks` returns exactly `3·len(peaks)` peaks, and the
triple generated from input peak `j` consists, in order, of peaks at
`e - σ(e)`, `e`, `e + σ(e)`, each keeping the input intensity (and
baseline). -/
theorem addNeighborPeaks_triples (res : ℚ → ℚ) (peaks0 : List PeakQ)
    (j k : ℕ) (hj : j < peaks0.length) (hk : k < 3) :
    (addNeighborPeaksQ res peaks0).length = 3 * peaks0.length
    ∧ (addNeighborPeaksQ res peaks0).getD (3 * j + k) ⟨0, 0, 0, 0⟩ =
        ⟨(peaks0.get ⟨j, hj⟩).energy +
            (if k = 0 then -(res (peaks0.get ⟨j, hj⟩).energy)
             else if k = 1 then 0 else res (peaks0.get ⟨j, hj⟩).energy),
          (peaks0.get ⟨j, hj⟩).intensity, (peaks0.get ⟨j, hj⟩).baseline, 0⟩ := by
  constructor
  · simp [addNeighborPeaksQ, Nat.mul_comm]
  · have hlt : 3 * j + k < peaks0.length * 3 := by omega
    have hdiv : (3 * j + k) / 3 = j := by omega
    have hmod : (3 * j + k) % 3 = k := by omega
    simp only [addNeighborPeaksQ, List.getD_eq_getElem?_getD, List.getElem?_map,
      List.getElem?_range, hlt, if_pos]
    simp [hdiv, hmod, List.getElem?_eq_getElem hj, List.get_eq_getElem]

/-- Both strided halves `a[0::2]` and `a[1::2]` of a list. -/
theorem everyOther_length :
    ∀ l : List ℚ, (everyOther l).length = (l.length + 1) / 2
  | [] => rfl
  | [_] => by norm_num [everyOther]
  | _ :: _ :: rest => by
    have := everyOther_length rest
    simp only [everyOther, List.length_cons, this]
    omega

/-- Length of the second strided half. -/
theorem everyOther_tail_length (l : List ℚ) :
    (everyOther l.tail).length = l.length / 2 := by
  cases l with
  | nil => rfl
  | cons a t =>
    simp only [List.tail_cons, everyOther_length, List.length_cons]

/-- Broadcastable shapes make the numpy addition succeed. -/
theorem broadcastAdd_ok (a b : List ℚ)
    (h : a.length = b.length ∨ a.length = 1 ∨ b.length = 1) :
    ∃ c, broadcastAdd a b = .ok c := by
  unfold broadcastAdd
  rcases h with h | h | h
  · rw [if_pos h]
    exact ⟨_, rfl⟩
  · by_cases h0 : a.length = b.length
    · rw [if_pos h0]
      exact ⟨_, rfl⟩
    · rw [if_neg h0, if_pos h]
      exact ⟨_, rfl⟩
  · by_cases h0 : a.length = b.length
    · rw [if_pos h0]
      exact ⟨_, rfl⟩
    · by_cases h1 : a.length = 1
      · rw [if_neg h0, if_pos h1]
        exact ⟨_, rfl⟩
      · rw [if_neg h0, if_neg h1, if_pos h]
        exact ⟨_, rfl⟩

/-- Non-broadcastable shapes raise `ValueError`. -/
theorem broadcastAdd_err (a b : List ℚ) (h : ¬ a.length = b.length)
    (h1 : ¬ a.length = 1) (h2 : ¬ b.length = 1) :
    broadcastAdd a b = .error .valueError := by
  unfold broadcastAdd
  rw [if_neg h, if_neg h1, if_neg h2]

/-- C10 (amended): `downsample` never returns.  When the two strided halves
of the counts broadcast (even length, or length at most 3) the subsequent
subscript of the `EnergyScale` object raises `TypeError`; for odd counts
length at least 5 the strided addition raises `ValueError` first.  Either
way `analyze(..., downsample=True)` raises on every input. -/
theorem downsample_error_kinds (s1 s2 : SpectrumQ)
    (h1 : s1.counts.length % 2 = 0 ∨ s1.counts.length ≤ 3)
    (h2 : s2.counts.length % 2 = 1 ∧ 5 ≤ s2.counts.length) :
    downsampleQ s1 = .error .typeError
    ∧ downsampleQ s2 = .error .valueError
    ∧ analyzeSample true s1 = .error .typeError
    ∧ analyzeSample true s2 = .error .valueError := by
  have la1 := everyOther_length s1.counts
  have lb1 := everyOther_tail_length s1.counts
  have la2 := everyOther_length s2.counts
  have lb2 := everyOther_tail_length s2.counts
  have hok : downsampleQ s1 = .error .typeError := by
    obtain ⟨c, hc⟩ := broadcastAdd_ok (everyOther s1.counts) (everyOther s1.counts.tail)
      (by omega)
    unfold downsampleQ
    rw [hc]
    rfl
  have herr : downsampleQ s2 = .error .valueError := by
    have hb := broadcastAdd_err (everyOther s2.counts) (everyOther s2.counts.tail)
      (by omega) (by omega) (by omega)
    unfold downsampleQ
    rw [hb]
    rfl
  exact ⟨hok, herr, hok, herr⟩

/-- C10 witness: a 4-bin spectrum raises `TypeError`, a 5-bin spectrum
raises `ValueError`. -/
theorem downsample_error_kinds_witness :
    downsampleQ ⟨[1, 2, 3, 4], ⟨[0, 1, 2, 3, 4]⟩, 1, 1⟩ = .error .typeError
    ∧ downsampleQ ⟨[1, 2, 3, 4, 5], ⟨[0, 1, 2, 3, 4, 5]⟩, 1, 1⟩ = .error .valueError
    ∧ analyzeSample true ⟨[1, 2, 3, 4], ⟨[0, 1, 2, 3, 4]⟩, 1, 1⟩ = .error .typeError
    ∧ analyzeSample true ⟨[1, 2, 3, 4, 5], ⟨[0, 1, 2, 3, 4, 5]⟩, 1, 1⟩ = .error .valueError :=
  downsample_error_kinds ⟨[1, 2, 3, 4], ⟨[0, 1, 2, 3, 4]⟩, 1, 1⟩
    ⟨[1, 2, 3, 4, 5], ⟨[0, 1, 2, 3, 4, 5]⟩, 1, 1⟩ (by decide) (by decide)

/-- C10 counterexample: a 5-bin spectrum makes `downsample` raise
`ValueError`, not the `TypeError` the claim asserts for every spectrum. -/
theorem downsample_claim_cex :
    downsampleQ ⟨[1, 2, 3, 4, 5], ⟨[0, 1, 2, 3, 4, 5]⟩, 1, 1⟩ = .error .valueError
    ∧ PyErr.valueError ≠ PyErr.typeError := by
  refine ⟨?_, by decide⟩
  have hb : broadcastAdd (everyOther [1, 2, 3, 4, 5]) (everyOther ([1, 2, 3, 4, 5] : List ℚ).tail)
      = .error .valueError :=
    broadcastAdd_err _ _ (by decide) (by decide) (by decide)
  unfold downsampleQ
  rw [hb]
  rfl

/-- C9 witness: one input peak at energy 100 with resolution 2 expands to a
triple whose third element sits at energy 102 with the input intensity. -/
theorem addNeighborPeaks_triples_witness :
    (addNeighborPeaksQ (fun _ => 2) [⟨100, 5, 1, 0⟩]).length = 3
    ∧ (addNeighborPeaksQ (fun _ => 2) [⟨100, 5, 1, 0⟩]).getD 2 ⟨0, 0, 0, 0⟩ =
        ⟨102, 5, 1, 0⟩ := by
  have h := addNeighborPeaks_triples (fun _ => 2) [⟨100, 5, 1, 0⟩] 0 2
    (by norm_num) (by norm_num)
  norm_num at h
  exact h

/-- Counting a predicate that holds exactly on the first `m` positions. -/
theorem countP_of_prefix (l : List ℚ) (p : ℚ → Bool) (m : ℕ) (hm : m ≤ l.length)
    (h1 : ∀ k, (hk : k < l.length) → k < m → p (l.get ⟨k, hk⟩) = true)
    (h2 : ∀ k, (hk : k < l.length) → m ≤ k → p (l.get ⟨k, hk⟩) = false) :
    l.countP p = m := by
  induction l generalizing m with
  | nil =>
    simp only [List.length_nil, Nat.le_zero] at hm
    simp [hm]
  | cons a t ih =>
    rw [List.countP_cons]
    cases m with
    | zero =>
      have ha : p a = false := by
        have := h2 0 (by simp) (by omega)
        simpa using this
      have ht : t.countP p = 0 := by
        apply ih 0 (by omega)
        · intro k hk hk0
          omega
        · intro k hk _
          have := h2 (k + 1) (by simp; omega) (by omega)
          simpa using this
      simp [ha, ht]
    | succ m =>
      have ha : p a = true := by
        have := h1 0 (by simp) (by omega)
        simpa using this
      have ht : t.countP p = m := by
        apply ih m (by simpa using hm)
        · intro k hk hkm
          have := h1 (k + 1) (by simp; omega) (by omega)
          simpa using this
        · intro k hk hkm
          have := h2 (k + 1) (by simp; omega) (by omega)
          simpa using this
      simp [ha, ht]

/-- Monotonicity of the edge table of a strictly sorted scale. -/
theorem get_mono_of_sorted (edges : List ℚ) (hsort : edges.Pairwise (· < ·))
    (k₁ k₂ : ℕ) (h₁ : k₁ < edges.length) (h₂ : k₂ < edges.length) (hk : k₁ ≤ k₂) :
    edges.get ⟨k₁, h₁⟩ ≤ edges.get ⟨k₂, h₂⟩ := by
  rcases Nat.lt_or_ge k₁ k₂ with h | h
  · exact le_of_lt (List.pairwise_iff_get.mp hsort ⟨k₁, h₁⟩ ⟨k₂, h₂⟩ h)
  · have : k₁ = k₂ := by omega
    subst this
    exact le_refl _

/-- On a strictly sorted edge table, `findBin` maps any energy in the
half-open bin `(edges[i], edges[i+1]]` to `i`. -/
theorem findBin_in_bin (edges : List ℚ) (hsort : edges.Pairwise (· < ·))
    (i : ℕ) (hi : i + 1 < edges.length) (e : ℚ)
    (h1 : edges.get ⟨i, by omega⟩ < e) (h2 : e ≤ edges.get ⟨i + 1, hi⟩) :
    findBinQ ⟨edges⟩ e = i := by
  have hcount : edges.countP (fun x => decide (x < e)) = i + 1 := by
    apply countP_of_prefix _ _ (i + 1) (by omega)
    · intro k hk hki
      have hle : edges.get ⟨k, hk⟩ ≤ edges.get ⟨i, by omega⟩ :=
        get_mono_of_sorted edges hsort k i hk (by omega) (by omega)
      simp only [decide_eq_true_eq]
      linarith
    · intro k hk hki
      have hle : edges.get ⟨i + 1, hi⟩ ≤ edges.get ⟨k, hk⟩ :=
        get_mono_of_sorted edges hsort (i + 1) k hi hk (by omega)
      simp only [decide_eq_false_iff_not, not_lt]
      linarith
  show (edges.countP (fun x => decide (x < e)) : ℤ) - 1 = i
  rw [hcount]
  push_cast
  ring

/-- C3 (amended): on a strictly increasing edge table with `N ≥ 1` bins,
`findBin(e)` returns the index `i` with `edges[i] < e ≤ edges[i+1]`
(left-OPEN, right-closed, not the claimed left-closed convention); it does
not saturate: energies at or below `edges[0]` map to `-1` and energies above
`edges[N]` map to `N`.  Consequently the round trip
`findBin(findEnergy(c)) = ⌊c⌋` holds for every non-integral channel
`c ∈ (0, N)`, while integral channels land one bin low. -/
theorem findBin_amended (edges : List ℚ) (N : ℕ) (hN : 1 ≤ N)
    (hlen : edges.length = N + 1) (hsort : edges.Pairwise (· < ·))
    (i : ℕ) (hi : i + 1 ≤ N) (e : ℚ)
    (he1 : edges.getD i 0 < e) (he2 : e ≤ edges.getD (i + 1) 0)
    (elo : ℚ) (hlo : elo ≤ edges.getD 0 0)
    (ehi : ℚ) (hhi : edges.getD N 0 < ehi)
    (c : ℚ) (hc0 : 0 ≤ c) (hcN : c < N) (hcf : (⌊c⌋ : ℚ) < c) :
    findBinQ ⟨edges⟩ e = i
    ∧ findBinQ ⟨edges⟩ elo = -1
    ∧ findBinQ ⟨edges⟩ ehi = N
    ∧ (findEnergyQ ⟨edges⟩ c).map (findBinQ ⟨edges⟩) = some ⌊c⌋ := by
  have hiL : i + 1 < edges.length := by omega
  have hgi : edges.getD i 0 = edges.get ⟨i, by omega⟩ := List.getD_eq_getElem edges 0 (by omega)
  have hgi1 : edges.getD (i + 1) 0 = edges.get ⟨i + 1, hiL⟩ := List.getD_eq_getElem edges 0 hiL
  have part1 : findBinQ ⟨edges⟩ e = i := by
    apply findBin_in_bin edges hsort i hiL e
    · rw [← hgi]; exact he1
    · rw [← hgi1]; exact he2
  have part2 : findBinQ ⟨edges⟩ elo = -1 := by
    have hcount : edges.countP (fun x => decide (x < elo)) = 0 := by
      apply countP_of_prefix _ _ 0 (by omega)
      · intro k hk hk0
        omega
      · intro k hk _
        have hg0 : edges.getD 0 0 = edges.get ⟨0, by omega⟩ :=
          List.getD_eq_getElem edges 0 (by omega)
        have hle : edges.get ⟨0, by omega⟩ ≤ edges.get ⟨k, hk⟩ :=
          get_mono_of_sorted edges hsort 0 k (by omega) hk (by omega)
        simp only [decide_eq_false_iff_not, not_lt]
        rw [hg0] at hlo
        linarith
    show (edges.countP (fun x => decide (x < elo)) : ℤ) - 1 = -1
    rw [hcount]
    ring
  have part3 : findBinQ ⟨edges⟩ ehi = N := by
    have hcount : edges.countP (fun x => decide (x < ehi)) = N + 1 := by
      apply countP_of_prefix _ _ (N + 1) (by omega)
      · intro k hk _
        have hgN : edges.getD N 0 = edges.get ⟨N, by omega⟩ :=
          List.getD_eq_getElem edges 0 (by omega)
        have hle : edges.get ⟨k, hk⟩ ≤ edges.get ⟨N, by omega⟩ :=
          get_mono_of_sorted edges hsort k N hk (by omega) (by omega)
        simp only [decide_eq_true_eq]
        rw [hgN] at hhi
        linarith
      · intro k hk hkN
        omega
    show (edges.countP (fun x => decide (x < ehi)) : ℤ) - 1 = N
    rw [hcount]
    push_cast
    ring
  refine ⟨part1, part2, part3, ?_⟩
  have hfl0 : 0 ≤ ⌊c⌋ := Int.floor_nonneg.mpr hc0
  have hflN : ⌊c⌋ < (N : ℤ) := by
    rw [Int.floor_lt]
    push_cast
    exact hcN
  have hpy : pyInt c = ⌊c⌋ := if_pos hc0
  have hjN : ⌊c⌋.toNat < N := by omega
  have hrange : 0 ≤ pyInt c ∧ (pyInt c).toNat + 1 < edges.length := by
    rw [hpy]
    constructor
    · exact hfl0
    · omega
  have hcast : ((⌊c⌋.toNat : ℤ) : ℚ) = (⌊c⌋ : ℚ) := by
    rw [Int.toNat_of_nonneg hfl0]
  have hf0 : 0 < c - (⌊c⌋ : ℚ) := by linarith
  have hf1 : c - (⌊c⌋ : ℚ) < 1 := by
    have := Int.lt_floor_add_one c
    linarith
  have hjL : ⌊c⌋.toNat + 1 < edges.length := by omega
  have hgj : edges.getD ⌊c⌋.toNat 0 = edges.get ⟨⌊c⌋.toNat, by omega⟩ :=
    List.getD_eq_getElem edges 0 (by omega)
  have hgj1 : edges.getD (⌊c⌋.toNat + 1) 0 = edges.get ⟨⌊c⌋.toNat + 1, hjL⟩ :=
    List.getD_eq_getElem edges 0 hjL
  have hgap : edges.get ⟨⌊c⌋.toNat, by omega⟩ < edges.get ⟨⌊c⌋.toNat + 1, hjL⟩ :=
    List.pairwise_iff_get.mp hsort _ _ (by simp)
  have hfeq : findEnergyQ ⟨edges⟩ c =
      some (edges.get ⟨⌊c⌋.toNat, by omega⟩ * (1 - (c - (⌊c⌋ : ℚ)))
        + (c - (⌊c⌋ : ℚ)) * edges.get ⟨⌊c⌋.toNat + 1, hjL⟩) := by
    unfold findEnergyQ
    rw [if_pos hrange, hpy, hgj, hgj1]
  rw [hfeq]
  simp only [Option.map_some']
  congr 1
  have hv1 : edges.get ⟨⌊c⌋.toNat, by omega⟩ <
      edges.get ⟨⌊c⌋.toNat, by omega⟩ * (1 - (c - (⌊c⌋ : ℚ)))
        + (c - (⌊c⌋ : ℚ)) * edges.get ⟨⌊c⌋.toNat + 1, hjL⟩ := by
    nlinarith
  have hv2 : edges.get ⟨⌊c⌋.toNat, by omega⟩ * (1 - (c - (⌊c⌋ : ℚ)))
        + (c - (⌊c⌋ : ℚ)) * edges.get ⟨⌊c⌋.toNat + 1, hjL⟩
      ≤ edges.get ⟨⌊c⌋.toNat + 1, hjL⟩ := by
    nlinarith
  have := findBin_in_bin edges hsort ⌊c⌋.toNat hjL _ hv1 hv2
  rw [this, Int.toNat_of_nonneg hfl0]

/-- C3 witness: on the edge table `[0,1,2,3,4,5]` the energy 3/2 falls in
bin 1, an energy below the table maps to `-1`, an energy above maps to 5,
and the round trip at the fractional channel 3/2 returns 1. -/
theorem findBin_amended_witness :
    findBinQ ⟨[0, 1, 2, 3, 4, 5]⟩ (3 / 2) = 1
    ∧ findBinQ ⟨[0, 1, 2, 3, 4, 5]⟩ (-1) = -1
    ∧ findBinQ ⟨[0, 1, 2, 3, 4, 5]⟩ 6 = 5
    ∧ (findEnergyQ ⟨[0, 1, 2, 3, 4, 5]⟩ (3 / 2)).map (findBinQ ⟨[0, 1, 2, 3, 4, 5]⟩)
        = some ⌊(3 / 2 : ℚ)⌋ := by
  have h := findBin_amended [0, 1, 2, 3, 4, 5] 5 (by norm_num) (by norm_num)
    (by norm_num) 1 (by norm_num) (3 / 2) (by norm_num [List.getD])
    (by norm_num [List.getD]) (-1) (by norm_num [List.getD]) 6
    (by norm_num [List.getD]) (3 / 2) (by norm_num) (by norm_num)
    (by norm_num)
  exact h

/-- C3 counterexample: with edges `[0,1,2,3,4,5]` the code returns
`findBin(-1) = -1` (not the claimed saturation to 0), `findBin(6) = 5` (not
the claimed saturation to `N-1 = 4`), and the round trip at the integral
channel `c = 1` returns 0, not `⌊c⌋ = 1`. -/
theorem findBin_claim_cex :
    findBinQ ⟨[0, 1, 2, 3, 4, 5]⟩ (-1) = -1
    ∧ findBinQ ⟨[0, 1, 2, 3, 4, 5]⟩ 6 = 5
    ∧ (findEnergyQ ⟨[0, 1, 2, 3, 4, 5]⟩ 1).map (findBinQ ⟨[0, 1, 2, 3, 4, 5]⟩) = some 0
    ∧ (-1 : ℤ) ≠ 0 ∧ (5 : ℤ) ≠ 4 ∧ (some 0 : Option ℤ) ≠ some 1 := by
  refine ⟨?_, ?_, ?_, by decide, by decide, by decide⟩
  · norm_num [findBinQ, bisectLeft, List.countP, List.countP.go]
  · norm_num [findBinQ, bisectLeft, List.countP, List.countP.go]
  · norm_num [findEnergyQ, pyInt, findBinQ, bisectLeft, List.countP, List.countP.go,
      List.getD]

/-- Upper band produced by the assembly loop of `solve`, relative to the
starting state. -/
theorem solveTriLoop_u (n1 : ℕ) (lld : ℤ) (mu : ℚ) (fuel : ℕ) :
    ∀ (i : ℕ) (c2 : ℚ) (A : TriBand) (k : ℕ), n1 - 1 - i ≤ fuel →
      (solveTriLoop n1 lld mu fuel i c2 A).u k =
        if i ≤ k ∧ k + 1 < n1 then -cCoef lld mu k else A.u k := by
  induction fuel with
  | zero =>
    intro i c2 A k hfuel
    simp only [solveTriLoop]
    rw [if_neg (by omega)]
  | succ fuel ih =>
    intro i c2 A k hfuel
    simp only [solveTriLoop]
    by_cases hlt : i < n1 - 1
    · rw [if_pos hlt, ih (i + 1) _ _ k (by omega)]
      by_cases hk : k = i
      · subst hk
        rw [if_neg (by omega), if_pos ⟨le_refl _, by omega⟩]
        simp [Function.update]
      · by_cases hcond : i + 1 ≤ k ∧ k + 1 < n1
        · rw [if_pos hcond, if_pos ⟨by omega, hcond.2⟩]
        · rw [if_neg hcond, if_neg (by omega)]
          simp [Function.update, hk]
    · rw [if_neg hlt]
      rw [if_neg (by omega)]

/-- Lower band produced by the assembly loop of `solve`. -/
theorem solveTriLoop_l (n1 : ℕ) (lld : ℤ) (mu : ℚ) (fuel : ℕ) :
    ∀ (i : ℕ) (c2 : ℚ) (A : TriBand) (k : ℕ), n1 - 1 - i ≤ fuel →
      (solveTriLoop n1 lld mu fuel i c2 A).l k =
        if i + 1 ≤ k ∧ k < n1 then -cCoef lld mu (k - 1) else A.l k := by
  induction fuel with
  | zero =>
    intro i c2 A k hfuel
    simp only [solveTriLoop]
    rw [if_neg (by omega)]
  | succ fuel ih =>
    intro i c2 A k hfuel
    simp only [solveTriLoop]
    by_cases hlt : i < n1 - 1
    · rw [if_pos hlt, ih (i + 1) _ _ k (by omega)]
      by_cases hk : k = i + 1
      · subst hk
        rw [if_neg (by omega), if_pos ⟨le_refl _, by omega⟩]
        simp [Function.update]
      · by_cases hcond : i + 2 ≤ k ∧ k < n1
        · rw [if_pos hcond, if_pos ⟨by omega, hcond.2⟩]
        · rw [if_neg hcond, if_neg (by omega)]
          simp [Function.update, hk]
    · rw [if_neg hlt]
      rw [if_neg (by omega)]

/-- Diagonal band produced by the assembly loop of `solve`: interior entries
are `1 + c(k) + c(k-1)` (with the loop-carried `c2` at the current row), and
the final entry is overwritten with `1 - c2` after the loop. -/
theorem solveTriLoop_d (n1 : ℕ) (lld : ℤ) (mu : ℚ) (fuel : ℕ) :
    ∀ (i : ℕ) (c2 : ℚ) (A : TriBand) (k : ℕ), n1 - 1 - i ≤ fuel →
      (solveTriLoop n1 lld mu fuel i c2 A).d k =
        if i ≤ k ∧ k + 1 < n1 then
          1 + cCoef lld mu k + (if k = i then c2 else cCoef lld mu (k - 1))
        else if k = n1 - 1 then
          1 - (if i + 1 < n1 then cCoef lld mu (n1 - 2) else c2)
        else A.d k := by
  induction fuel with
  | zero =>
    intro i c2 A k hfuel
    simp only [solveTriLoop]
    rw [if_neg (by omega)]
    by_cases hk : k = n1 - 1
    · rw [if_pos hk]
      subst hk
      rw [if_neg (by omega)]
      simp [Function.update]
    · rw [if_neg hk]
      simp [Function.update, hk]
  | succ fuel ih =>
    intro i c2 A k hfuel
    simp only [solveTriLoop]
    by_cases hlt : i < n1 - 1
    · rw [if_pos hlt, ih (i + 1) _ _ k (by omega)]
      by_cases hk : k = i
      · have e1 : ¬(i + 1 ≤ k ∧ k + 1 < n1) := by omega
        have e2 : ¬(k = n1 - 1) := by omega
        rw [if_neg e1, if_neg e2]
        have e3 : i ≤ k ∧ k + 1 < n1 := by omega
        rw [if_pos e3, if_pos hk]
        dsimp only
        rw [hk, Function.update_same]
      · by_cases hcond : i + 1 ≤ k ∧ k + 1 < n1
        · have e3 : i ≤ k ∧ k + 1 < n1 := by omega
          rw [if_pos hcond, if_pos e3, if_neg hk]
          have hval : (if k = i + 1 then cCoef lld mu i else cCoef lld mu (k - 1))
              = cCoef lld mu (k - 1) := by
            by_cases h : k = i + 1
            · rw [if_pos h]
              congr 1
              omega
            · rw [if_neg h]
          rw [hval]
        · have e3 : ¬(i ≤ k ∧ k + 1 < n1) := by omega
          rw [if_neg hcond, if_neg e3]
          by_cases hk1 : k = n1 - 1
          · rw [if_pos hk1, if_pos hk1]
            have hval : (if i + 1 + 1 < n1 then cCoef lld mu (n1 - 2) else cCoef lld mu i)
                = cCoef lld mu (n1 - 2) := by
              by_cases h : i + 1 + 1 < n1
              · rw [if_pos h]
              · rw [if_neg h]
                congr 1
                omega
            rw [hval, if_pos (by omega)]
          · rw [if_neg hk1, if_neg hk1]
            dsimp only
            rw [Function.update_noteq hk]
    · rw [if_neg hlt]
      have e3 : ¬(i ≤ k ∧ k + 1 < n1) := by omega
      rw [if_neg e3]
      by_cases hk : k = n1 - 1
      · rw [if_pos hk]
        have e4 : ¬(i + 1 < n1) := by omega
        rw [if_neg e4]
        dsimp only
        rw [hk, Function.update_same]
      · rw [if_neg hk]
        dsimp only
        rw [Function.update_noteq hk]

/-- Interior diagonal entries of the assembled `A11`. -/
theorem assembleA11_d (n1 : ℕ) (lld : ℤ) (mu : ℚ) (k : ℕ) (hk : k + 1 < n1) :
    (assembleA11 n1 lld mu).d k =
      1 + cCoef lld mu k + (if k = 0 then 0 else cCoef lld mu (k - 1)) := by
  unfold assembleA11
  rw [solveTriLoop_d n1 lld mu n1 0 0 _ k (by omega), if_pos ⟨Nat.zero_le _, hk⟩]

/-- Last diagonal entry of the assembled `A11`: `1 - c(n1-2)`. -/
theorem assembleA11_d_last (n1 : ℕ) (lld : ℤ) (mu : ℚ) (hn : 2 ≤ n1) :
    (assembleA11 n1 lld mu).d (n1 - 1) = 1 - cCoef lld mu (n1 - 2) := by
  unfold assembleA11
  rw [solveTriLoop_d n1 lld mu n1 0 0 _ (n1 - 1) (by omega),
    if_neg (by omega), if_pos rfl, if_pos (by omega)]

/-- Upper entries of the assembled `A11`. -/
theorem assembleA11_u (n1 : ℕ) (lld : ℤ) (mu : ℚ) (k : ℕ) (hk : k + 1 < n1) :
    (assembleA11 n1 lld mu).u k = -cCoef lld mu k := by
  unfold assembleA11
  rw [solveTriLoop_u n1 lld mu n1 0 0 _ k (by omega), if_pos ⟨Nat.zero_le _, hk⟩]

/-- Lower entries of the assembled `A11`. -/
theorem assembleA11_l (n1 : ℕ) (lld : ℤ) (mu : ℚ) (k : ℕ) (h1 : 1 ≤ k)
    (hk : k < n1) :
    (assembleA11 n1 lld mu).l k = -cCoef lld mu (k - 1) := by
  unfold assembleA11
  rw [solveTriLoop_l n1 lld mu n1 0 0 _ k (by omega), if_pos ⟨by omega, hk⟩]

/-- C2 (amended): in the tridiagonal block `T` that `solve` assembles, the
interior diagonal is `1 + c(i-1) + c(i)` (with `c(-1) = 0`), the
off-diagonals are symmetric with `T[i,i+1] = T[i+1,i] = -c(i)` where
`c(i) = i·mu` for channels strictly above the LLD channel and `0` otherwise —
but the last diagonal entry is `1 - c(N-2)`, not the claimed `1 + c(N-2)`. -/
theorem solveTridiag_amended (n1 : ℕ) (lld : ℤ) (mu : ℚ) (i j k : Fin n1)
    (hn : 2 ≤ n1) (hi : (i : ℕ) + 1 < n1) (hj : (j : ℕ) = (i : ℕ) + 1)
    (hk : (k : ℕ) = n1 - 1) :
    solveMatrix n1 (assembleA11 n1 lld mu) i i
        = 1 + cCoef lld mu i + (if (i : ℕ) = 0 then 0 else cCoef lld mu ((i : ℕ) - 1))
    ∧ solveMatrix n1 (assembleA11 n1 lld mu) i j = -cCoef lld mu i
    ∧ solveMatrix n1 (assembleA11 n1 lld mu) j i = -cCoef lld mu i
    ∧ solveMatrix n1 (assembleA11 n1 lld mu) k k = 1 - cCoef lld mu (n1 - 2)
    ∧ (lld < (i : ℕ) → cCoef lld mu i = (i : ℕ) * mu)
    ∧ (((i : ℕ) : ℤ) ≤ lld → cCoef lld mu i = 0) := by
  refine ⟨?_, ?_, ?_, ?_, ?_, ?_⟩
  · show (if ((i : ℕ) = (i : ℕ)) then _ else _) = _
    rw [if_pos rfl]
    exact assembleA11_d n1 lld mu i hi
  · show (if ((i : ℕ) = (j : ℕ)) then _ else _) = _
    have e1 : ¬((i : ℕ) = (j : ℕ)) := by omega
    rw [if_neg e1, if_pos hj]
    exact assembleA11_u n1 lld mu i hi
  · show (if ((j : ℕ) = (i : ℕ)) then _ else _) = _
    have e1 : ¬((j : ℕ) = (i : ℕ)) := by omega
    have e2 : ¬((i : ℕ) = (j : ℕ) + 1) := by omega
    rw [if_neg e1, if_neg e2, if_pos hj]
    have hji : (j : ℕ) - 1 = (i : ℕ) := by omega
    rw [assembleA11_l n1 lld mu j (by omega) j.isLt, hji]
  · show (if ((k : ℕ) = (k : ℕ)) then _ else _) = _
    rw [if_pos rfl, hk]
    exact assembleA11_d_last n1 lld mu hn
  · intro h
    unfold cCoef
    rw [if_neg (by omega)]
  · intro h
    unfold cCoef
    rw [if_pos h]

/-- C2 witness: for `N = 3`, `lld = 0`, `mu = 1` the assembled block has
diagonal `(1, 2, 0)` and symmetric off-diagonals `-1` between channels 1
and 2. -/
theorem solveTridiag_amended_witness :
    solveMatrix 3 (assembleA11 3 0 1) ⟨1, by norm_num⟩ ⟨1, by norm_num⟩ = 2
    ∧ solveMatrix 3 (assembleA11 3 0 1) ⟨1, by norm_num⟩ ⟨2, by norm_num⟩ = -1
    ∧ solveMatrix 3 (assembleA11 3 0 1) ⟨2, by norm_num⟩ ⟨1, by norm_num⟩ = -1
    ∧ solveMatrix 3 (assembleA11 3 0 1) ⟨2, by norm_num⟩ ⟨2, by norm_num⟩ = 0 := by
  have h := solveTridiag_amended 3 0 1 ⟨1, by norm_num⟩ ⟨2, by norm_num⟩
    ⟨2, by norm_num⟩ (by norm_num) (by norm_num) (by norm_num) (by norm_num)
  obtain ⟨h1, h2, h3, h4, -, -⟩ := h
  rw [h1, h2, h3, h4]
  norm_num [cCoef]

/-- C2 counterexample: for `N = 3`, `lld = 0`, `mu = 1` the last diagonal
entry of the assembled block is `1 - c(1) = 0`, while the claim predicts
`1 + c(1) = 2`. -/
theorem solveTridiag_claim_cex :
    solveMatrix 3 (assembleA11 3 0 1) ⟨2, by norm_num⟩ ⟨2, by norm_num⟩ = 0
    ∧ 1 + cCoef 0 1 1 = 2
    ∧ (0 : ℚ) ≠ 2 := by
  refine ⟨?_, by norm_num [cCoef], by norm_num⟩
  have hred : solveMatrix 3 (assembleA11 3 0 1) ⟨2, by norm_num⟩ ⟨2, by norm_num⟩
      = (assembleA11 3 0 1).d 2 := by
    simp [solveMatrix]
  rw [hred, assembleA11_d_last 3 0 1 (by norm_num)]
  norm_num [cCoef]

/-- Upper band produced by the assembly loop of `smooth` (written at `i+1`). -/
theorem smoothLoop_u (n : ℕ) (lam : ℚ) (fuel : ℕ) :
    ∀ (i : ℕ) (c2 : ℚ) (A : TriBand) (k : ℕ), n - 1 - i ≤ fuel →
      (smoothLoop n lam fuel i c2 A).u k =
        if i + 1 ≤ k ∧ k < n then -lam else A.u k := by
  induction fuel with
  | zero =>
    intro i c2 A k hfuel
    simp only [smoothLoop]
    rw [if_neg (by omega)]
  | succ fuel ih =>
    intro i c2 A k hfuel
    simp only [smoothLoop]
    by_cases hlt : i < n - 1
    · rw [if_pos hlt, ih (i + 1) _ _ k (by omega)]
      by_cases hk : k = i + 1
      · have e1 : ¬(i + 1 + 1 ≤ k ∧ k < n) := by omega
        rw [if_neg e1, if_pos (by omega)]
        dsimp only
        rw [hk, Function.update_same]
      · by_cases hcond : i + 2 ≤ k ∧ k < n
        · rw [if_pos hcond, if_pos (by omega)]
        · rw [if_neg hcond, if_neg (by omega)]
          dsimp only
          rw [Function.update_noteq hk]
    · rw [if_neg hlt]
      rw [if_neg (by omega)]

/-- Lower band produced by the assembly loop of `smooth` (written at `i`). -/
theorem smoothLoop_l (n : ℕ) (lam : ℚ) (fuel : ℕ) :
    ∀ (i : ℕ) (c2 : ℚ) (A : TriBand) (k : ℕ), n - 1 - i ≤ fuel →
      (smoothLoop n lam fuel i c2 A).l k =
        if i ≤ k ∧ k + 1 < n then -lam else A.l k := by
  induction fuel with
  | zero =>
    intro i c2 A k hfuel
    simp only [smoothLoop]
    rw [if_neg (by omega)]
  | succ fuel ih =>
    intro i c2 A k hfuel
    simp only [smoothLoop]
    by_cases hlt : i < n - 1
    · rw [if_pos hlt, ih (i + 1) _ _ k (by omega)]
      by_cases hk : k = i
      · have e1 : ¬(i + 1 ≤ k ∧ k + 1 < n) := by omega
        rw [if_neg e1, if_pos (by omega)]
        dsimp only
        rw [hk, Function.update_same]
      · by_cases hcond : i + 1 ≤ k ∧ k + 1 < n
        · rw [if_pos hcond, if_pos (by omega)]
        · rw [if_neg hcond, if_neg (by omega)]
          dsimp only
          rw [Function.update_noteq hk]
    · rw [if_neg hlt]
      rw [if_neg (by omega)]

/-- Diagonal band produced by the assembly loop of `smooth`. -/
theorem smoothLoop_d (n : ℕ) (lam : ℚ) (fuel : ℕ) :
    ∀ (i : ℕ) (c2 : ℚ) (A : TriBand) (k : ℕ), n - 1 - i ≤ fuel →
      (smoothLoop n lam fuel i c2 A).d k =
        if i ≤ k ∧ k + 1 < n then 1 + lam + (if k = i then c2 else lam)
        else if k = n - 1 then 1 + (if i + 1 < n then lam else c2)
        else A.d k := by
  induction fuel with
  | zero =>
    intro i c2 A k hfuel
    simp only [smoothLoop]
    have e3 : ¬(i ≤ k ∧ k + 1 < n) := by omega
    rw [if_neg e3]
    by_cases hk : k = n - 1
    · rw [if_pos hk]
      have e4 : ¬(i + 1 < n) := by omega
      rw [if_neg e4]
      rw [hk, Function.update_same]
    · rw [if_neg hk]
      rw [Function.update_noteq hk]
  | succ fuel ih =>
    intro i c2 A k hfuel
    simp only [smoothLoop]
    by_cases hlt : i < n - 1
    · rw [if_pos hlt, ih (i + 1) _ _ k (by omega)]
      by_cases hk : k = i
      · have e1 : ¬(i + 1 ≤ k ∧ k + 1 < n) := by omega
        have e2 : ¬(k = n - 1) := by omega
        rw [if_neg e1, if_neg e2]
        have e3 : i ≤ k ∧ k + 1 < n := by omega
        rw [if_pos e3, if_pos hk]
        dsimp only
        rw [hk, Function.update_same]
      · by_cases hcond : i + 1 ≤ k ∧ k + 1 < n
        · have e3 : i ≤ k ∧ k + 1 < n := by omega
          rw [if_pos hcond, if_pos e3, if_neg hk]
          have hval : (if k = i + 1 then lam else lam) = lam := by
            rw [if_congr Iff.rfl rfl rfl, ite_self]
          rw [hval]
        · have e3 : ¬(i ≤ k ∧ k + 1 < n) := by omega
          rw [if_neg hcond, if_neg e3]
          by_cases hk1 : k = n - 1
          · rw [if_pos hk1, if_pos hk1]
            have hval : (if i + 1 + 1 < n then lam else lam) = lam := ite_self lam
            rw [hval, if_pos (by omega)]
          · rw [if_neg hk1, if_neg hk1]
            dsimp only
            rw [Function.update_noteq hk]
    · rw [if_neg hlt]
      have e3 : ¬(i ≤ k ∧ k + 1 < n) := by omega
      rw [if_neg e3]
      by_cases hk : k = n - 1
      · rw [if_pos hk]
        have e4 : ¬(i + 1 < n) := by omega
        rw [if_neg e4]
        dsimp only
        rw [hk, Function.update_same]
      · rw [if_neg hk]
        dsimp only
        rw [Function.update_noteq hk]

/-- Entries of the banded array assembled by `smooth` for constant `lmbda`:
the upper band. -/
theorem smoothBand_u (n : ℕ) (lam : ℚ) (k : ℕ) :
    (smoothBand n lam).u k = if 1 ≤ k ∧ k < n then -lam else 0 := by
  unfold smoothBand
  rw [smoothLoop_u n lam n 0 0 _ k (by omega)]

/-- The lower band assembled by `smooth`. -/
theorem smoothBand_l (n : ℕ) (lam : ℚ) (k : ℕ) :
    (smoothBand n lam).l k = if k + 1 < n then -lam else 0 := by
  unfold smoothBand
  rw [smoothLoop_l n lam n 0 0 _ k (by omega)]
  by_cases h : k + 1 < n
  · rw [if_pos ⟨Nat.zero_le _, h⟩, if_pos h]
  · rw [if_neg (by omega), if_neg h]

/-- The diagonal band assembled by `smooth`: note the `+` in the final
entry (`_smoothing.py` line 96), unlike `solve`. -/
theorem smoothBand_d (n : ℕ) (lam : ℚ) (k : ℕ) :
    (smoothBand n lam).d k =
      if k + 1 < n then 1 + lam + (if k = 0 then 0 else lam)
      else if k = n - 1 then 1 + (if 1 < n then lam else 0)
      else 0 := by
  unfold smoothBand
  rw [smoothLoop_d n lam n 0 0 _ k (by omega)]
  by_cases h : k + 1 < n
  · rw [if_pos ⟨Nat.zero_le _, h⟩, if_pos h]
  · rw [if_neg (by omega), if_neg h]

/-- Column sums of a banded matrix: the diagonal entry plus the upper
neighbour (when the column has one) plus the lower neighbour (when the
column has one). -/
theorem bandedMatrix_colsum (n : ℕ) (A : TriBand) (j : Fin n) :
    (∑ i, bandedMatrix n A i j) =
      A.d j + (if 0 < (j : ℕ) then A.u j else 0)
        + (if (j : ℕ) + 1 < n then A.l j else 0) := by
  have hsplit : ∀ i : Fin n, bandedMatrix n A i j =
      (if i = j then A.d j else 0) + (if (j : ℕ) = (i : ℕ) + 1 then A.u j else 0)
        + (if (i : ℕ) = (j : ℕ) + 1 then A.l j else 0) := by
    intro i
    show (if (i : ℕ) = (j : ℕ) then A.d j else _) = _
    by_cases h1 : (i : ℕ) = (j : ℕ)
    · have hij : i = j := Fin.ext h1
      rw [if_pos h1, if_pos hij, if_neg (by omega), if_neg (by omega)]
      ring
    · have hij : ¬(i = j) := fun hh => h1 (by rw [hh])
      rw [if_neg h1, if_neg hij]
      by_cases h2 : (j : ℕ) = (i : ℕ) + 1
      · rw [if_pos h2, if_pos h2, if_neg (by omega)]
        ring
      · rw [if_neg h2, if_neg h2]
        by_cases h3 : (i : ℕ) = (j : ℕ) + 1
        · rw [if_pos h3]
          ring
        · rw [if_neg h3]
          ring
  rw [Finset.sum_congr rfl (fun i _ => hsplit i), Finset.sum_add_distrib,
    Finset.sum_add_distrib]
  have p1 : (∑ i : Fin n, if i = j then A.d j else 0) = A.d j := by
    rw [Finset.sum_ite_eq' Finset.univ j (fun _ => A.d j)]
    simp
  have p2 : (∑ i : Fin n, if (j : ℕ) = (i : ℕ) + 1 then A.u j else 0)
      = if 0 < (j : ℕ) then A.u j else 0 := by
    by_cases hj : 0 < (j : ℕ)
    · rw [if_pos hj]
      have hcond : ∀ i : Fin n, ((j : ℕ) = (i : ℕ) + 1) ↔ (i = ⟨(j : ℕ) - 1, by omega⟩) := by
        intro i
        rw [Fin.ext_iff]
        show _ ↔ ((i : ℕ) = (j : ℕ) - 1)
        omega
      rw [Finset.sum_congr rfl (fun i _ => if_congr (hcond i) rfl rfl),
        Finset.sum_ite_eq' Finset.univ _ (fun _ => A.u j)]
      simp
    · rw [if_neg hj]
      apply Finset.sum_eq_zero
      intro i _
      rw [if_neg (by omega)]
  have p3 : (∑ i : Fin n, if (i : ℕ) = (j : ℕ) + 1 then A.l j else 0)
      = if (j : ℕ) + 1 < n then A.l j else 0 := by
    by_cases hj : (j : ℕ) + 1 < n
    · rw [if_pos hj]
      have hcond : ∀ i : Fin n, ((i : ℕ) = (j : ℕ) + 1) ↔ (i = ⟨(j : ℕ) + 1, hj⟩) := by
        intro i
        rw [Fin.ext_iff]
      rw [Finset.sum_congr rfl (fun i _ => if_congr (hcond i) rfl rfl),
        Finset.sum_ite_eq' Finset.univ _ (fun _ => A.l j)]
      simp
    · rw [if_neg hj]
      apply Finset.sum_eq_zero
      intro i _
      have : (i : ℕ) < n := i.isLt
      rw [if_neg (by omega)]
  rw [p1, p2, p3]

/-- Every column of the matrix assembled by `smooth` with a constant
smoothing factor sums to 1. -/
theorem smoothMatrix_colsum_one (n : ℕ) (lam : ℚ) (hn : 1 ≤ n) (j : Fin n) :
    (∑ i, bandedMatrix n (smoothBand n lam) i j) = 1 := by
  rw [bandedMatrix_colsum, smoothBand_d, smoothBand_u, smoothBand_l]
  by_cases h1 : (j : ℕ) + 1 < n
  · rw [if_pos h1, if_pos h1, if_pos h1]
    by_cases h0 : (j : ℕ) = 0
    · rw [if_pos h0, if_neg (by omega)]
      ring
    · rw [if_neg h0, if_pos (by omega), if_pos (by omega)]
      ring
  · have hj : (j : ℕ) = n - 1 := by
      have := j.isLt
      omega
    rw [if_neg h1, if_pos hj, if_neg h1]
    by_cases h2 : 1 < n
    · rw [if_pos h2, if_pos (by omega), if_pos (by omega)]
      ring
    · rw [if_neg h2, if_neg (by omega)]
      ring

/-- C4: for a signal of length `N ≥ 1` and a constant smoothing factor
`lam ≥ 0`, any exact solution `x` of the tridiagonal system that `smooth`
assembles and solves satisfies `sum x = sum y`: the smoother conserves the
integral of the signal. -/
theorem smooth_conserves_sum (n : ℕ) (lam : ℚ) (hn : 1 ≤ n) (hlam : 0 ≤ lam)
    (x y : Fin n → ℚ)
    (h : (bandedMatrix n (smoothBand n lam)).mulVec x = y) :
    ∑ i, x i = ∑ i, y i := by
  have hy : ∀ i, y i = ∑ jj, bandedMatrix n (smoothBand n lam) i jj * x jj := by
    intro i
    rw [← h]
    rfl
  have hcalc : ∑ i, y i = ∑ i, x i := by
    calc ∑ i, y i
        = ∑ i, ∑ jj, bandedMatrix n (smoothBand n lam) i jj * x jj :=
          Finset.sum_congr rfl (fun i _ => hy i)
      _ = ∑ jj, ∑ i, bandedMatrix n (smoothBand n lam) i jj * x jj :=
          Finset.sum_comm
      _ = ∑ jj, (∑ i, bandedMatrix n (smoothBand n lam) i jj) * x jj :=
          Finset.sum_congr rfl (fun jj _ => (Finset.sum_mul _ _ _).symm)
      _ = ∑ jj, 1 * x jj :=
          Finset.sum_congr rfl
            (fun jj _ => by rw [smoothMatrix_colsum_one n lam hn jj])
      _ = ∑ jj, x jj := by
          simp
  exact hcalc.symm

/-- C4 witness: for `N = 2`, `lam = 1` the assembled system is
`[[2,-1],[-1,2]]`; it maps `x = (1,2)` to `y = (0,3)` and both sum to 3. -/
theorem smooth_conserves_sum_witness :
    (bandedMatrix 2 (smoothBand 2 1)).mulVec ![1, 2] = ![0, 3]
    ∧ (∑ i, (![1, 2] : Fin 2 → ℚ) i) = ∑ i, (![0, 3] : Fin 2 → ℚ) i := by
  have hm : (bandedMatrix 2 (smoothBand 2 1)).mulVec ![1, 2] = ![0, 3] := by
    funext i2
    have hd0 := smoothBand_d 2 1 0
    have hd1 := smoothBand_d 2 1 1
    have hu1 := smoothBand_u 2 1 1
    have hl0 := smoothBand_l 2 1 0
    norm_num at hd0 hd1 hu1 hl0
    fin_cases i2 <;>
      simp [Matrix.mulVec, Matrix.dotProduct, Fin.sum_univ_two, bandedMatrix,
        hd0, hd1, hu1, hl0] <;>
      norm_num
  exact ⟨hm, smooth_conserves_sum 2 1 (by norm_num) (by norm_num) _ _ hm⟩

/-- The elimination kernel never touches the lower blocks or the lower
right-hand side. -/
theorem reduceLoop_lower (m : ℕ) : ∀ (fuel i : ℕ) (st : AugState),
    (reduceLoop m fuel i st).A21 = st.A21 ∧ (reduceLoop m fuel i st).A22 = st.A22
      ∧ (reduceLoop m fuel i st).B2 = st.B2
  | 0, _, _ => ⟨rfl, rfl, rfl⟩
  | fuel + 1, i, st => reduceLoop_lower m fuel (i + 1) (reduceStep st i)

/-- One elimination step keeps an all-zero `B1` and `A12` all zero: the
row operations divide and subtract zeroes. -/
theorem reduceStep_zero (st : AugState) (i : ℕ)
    (hB1 : ∀ r, st.B1 r = 0) (hA12 : ∀ r c, st.A12 r c = 0) :
    (∀ r, (reduceStep st i).B1 r = 0) ∧ (∀ r c, (reduceStep st i).A12 r c = 0) := by
  constructor
  · intro r
    simp [reduceStep, Function.update_apply, hB1]
  · intro r c
    simp [reduceStep, updRow, hA12]

/-- The elimination loop keeps an all-zero `B1` and `A12` all zero. -/
theorem reduceLoop_zero (m : ℕ) : ∀ (fuel i : ℕ) (st : AugState),
    (∀ r, st.B1 r = 0) → (∀ r c, st.A12 r c = 0) →
      (∀ r, (reduceLoop m fuel i st).B1 r = 0)
        ∧ (∀ r c, (reduceLoop m fuel i st).A12 r c = 0)
  | 0, _, _, hB1, hA12 => ⟨hB1, hA12⟩
  | fuel + 1, i, st, hB1, hA12 =>
    reduceLoop_zero m fuel (i + 1) (reduceStep st i)
      (reduceStep_zero st i hB1 hA12).1 (reduceStep_zero st i hB1 hA12).2

/-- One lower-block elimination step keeps an all-zero `A21` all zero
(its multiplier is an `A21` entry, hence zero). -/
theorem zeroStep_A21 (st : AugState) (i r₀ : ℕ)
    (hA21 : ∀ r c, st.A21 r c = 0) :
    ∀ r c, (zeroStep st i r₀).A21 r c = 0 := by
  intro r c
  simp [zeroStep, updRow, hA21]

/-- The lower-block elimination does not modify the top band, `A12` or `B1`. -/
theorem zeroRowLoop_top (m i : ℕ) : ∀ (fuel r : ℕ) (st : AugState),
    (zeroRowLoop m i fuel r st).band = st.band
      ∧ (zeroRowLoop m i fuel r st).A12 = st.A12
      ∧ (zeroRowLoop m i fuel r st).B1 = st.B1
  | 0, _, _ => ⟨rfl, rfl, rfl⟩
  | fuel + 1, r, st => zeroRowLoop_top m i fuel (r + 1) (zeroStep st i r)

/-- The inner loop of the lower-block elimination keeps a zero `A21` zero. -/
theorem zeroRowLoop_A21 (m i : ℕ) : ∀ (fuel r : ℕ) (st : AugState),
    (∀ r' c, st.A21 r' c = 0) → ∀ r' c, (zeroRowLoop m i fuel r st).A21 r' c = 0
  | 0, _, _, hA21 => hA21
  | fuel + 1, r, st, hA21 =>
    zeroRowLoop_A21 m i fuel (r + 1) (zeroStep st i r) (zeroStep_A21 st i r hA21)

/-- The outer loop of the lower-block elimination does not modify the top
band, `A12` or `B1`. -/
theorem zeroLoop_top (m : ℕ) : ∀ (fuel i : ℕ) (st : AugState),
    (zeroLoop m fuel i st).band = st.band
      ∧ (zeroLoop m fuel i st).A12 = st.A12
      ∧ (zeroLoop m fuel i st).B1 = st.B1
  | 0, _, _ => ⟨rfl, rfl, rfl⟩
  | fuel + 1, i, st => by
    have h1 := zeroLoop_top m fuel (i + 1) (zeroRowLoop m i m 0 st)
    have h2 := zeroRowLoop_top m i m 0 st
    exact ⟨h1.1.trans h2.1, h1.2.1.trans h2.2.1, h1.2.2.trans h2.2.2⟩

/-- The outer loop of the lower-block elimination keeps a zero `A21` zero. -/
theorem zeroLoop_A21 (m : ℕ) : ∀ (fuel i : ℕ) (st : AugState),
    (∀ r c, st.A21 r c = 0) → ∀ r c, (zeroLoop m fuel i st).A21 r c = 0
  | 0, _, _, hA21 => hA21
  | fuel + 1, i, st, hA21 =>
    zeroLoop_A21 m fuel (i + 1) (zeroRowLoop m i m 0 st)
      (zeroRowLoop_A21 m i m 0 st hA21)

/-- A zero dense block sums to zero. -/
theorem matSum_zero (r c : ℕ) (M : ℕ → ℕ → ℚ) (h : ∀ i j, M i j = 0) :
    matSum r c M = 0 :=
  Finset.sum_eq_zero fun i _ => Finset.sum_eq_zero fun j _ => h i j

/-- Back-substitution on an all-zero right-hand side yields zero. -/
theorem backsub_zero (n : ℕ) (dd uu bb : ℕ → ℚ) (hbb : ∀ r, bb r = 0) :
    ∀ (fuel i : ℕ), backsub n dd uu bb fuel i = 0
  | 0, i => by simp [backsub, hbb]
  | fuel + 1, i => by
    by_cases h : i + 1 < n
    · simp [backsub, h, hbb, backsub_zero n dd uu bb hbb fuel (i + 1)]
    · simp [backsub, h, hbb]

/-- With an all-zero lower-left block, the post-elimination check quantity
`A21.sum()` is exactly zero. -/
theorem spa_A21_zero (n1 m : ℕ) (st0 : AugState)
    (h : ∀ r c, st0.A21 r c = 0) :
    matSum m n1 (zeroLoop m n1 0 (reduceLoop m n1 0 st0)).A21 = 0 := by
  apply matSum_zero
  intro r c
  apply zeroLoop_A21
  intro r' c'
  rw [(reduceLoop_lower m n1 0 st0).1]
  exact h r' c'

/-- With zero counts and a zero response block, the back-propagated upper
right-hand side is identically zero. -/
theorem spa_B1prime_zero (n1 m : ℕ) (st0 : AugState)
    (h1 : ∀ r, st0.B1 r = 0) (h2 : ∀ r c, st0.A12 r c = 0) (a : ℕ → ℚ) (r : ℕ) :
    (zeroLoop m n1 0 (reduceLoop m n1 0 st0)).B1 r
      - ∑ j ∈ Finset.range m, (zeroLoop m n1 0 (reduceLoop m n1 0 st0)).A12 r j * a j
      = 0 := by
  have htop := zeroLoop_top m n1 0 (reduceLoop m n1 0 st0)
  have hz := reduceLoop_zero m n1 0 st0 h1 h2
  rw [htop.2.2, htop.2.1, hz.1 r]
  simp [hz.2]

/-- On a residual that is identically zero the scan loop only ever takes the
flats branch: the accumulator never grows. -/
theorem scanLoop_flat (es : EnergyScaleQ) (sqrtFn : ℚ → ℚ) (u : List ℚ) :
    ∀ (fuel i : ℕ) (st : ScanState), st.current = 0 →
      ∃ st', scanLoop es sqrtFn u u fuel i st = .ok st'
        ∧ st'.acc = st.acc ∧ st'.current = 0
  | 0, _, st, hst => ⟨st, rfl, rfl, hst⟩
  | fuel + 1, i, st, hst => by
    simp only [scanLoop]
    by_cases h : i < u.length
    · rw [if_pos h]
      have hstep : scanStep es sqrtFn u u i st = .ok { st with prev := st.current } := by
        unfold scanStep
        rw [if_pos (by rw [hst, sub_self])]
      rw [hstep]
      exact scanLoop_flat es sqrtFn u fuel (i + 1) _ hst
    · rw [if_neg h]
      exact ⟨st, rfl, rfl, hst⟩

/-- C7: `solve` accepts an empty peak list as a degenerate case: the
`S = zeros((n1, 1))` placeholder passes every shape check and the exact
lower-left zero check, no error is raised, the output peak list is empty,
and with all-zero counts the fitted continuum is identically zero.
Moreover the derivative scan on an identically zero residual proposes no
peaks, and expanding an empty peak list yields an empty list.  The `_barni`
elimination kernels are modelled from the specification, `nnls` by its
result `a`. -/
theorem solve_empty_peaks_degenerate (n1 : ℕ) (lld : ℤ) (mu : ℚ)
    (res resE : ℚ → ℚ) (a : ℕ → ℚ) (counts : ℕ → ℚ)
    (hc : ∀ r, counts r = 0) (i : ℕ)
    (es : EnergyScaleQ) (sqrtFn : ℚ → ℚ) (u : List ℚ) (lldE : ℚ) :
    solvePeaksOut (spaSolve n1 counts [] lld mu res a) = some []
    ∧ solveBaselineAt (spaSolve n1 counts [] lld mu res a) i = some 0
    ∧ getInitialPeaksQ es sqrtFn resE lldE u u = .ok []
    ∧ addNeighborPeaksQ resE [] = [] := by
  have hkey : ∃ C1, spaSolve n1 counts [] lld mu res a = .ok (C1, a, [])
      ∧ (∀ r, C1 r = 0) := by
    unfold spaSolve
    simp only [List.isEmpty_nil, ite_true, List.length_nil, List.range_zero,
      List.map_nil]
    split_ifs with h1 h2
    · refine ⟨_, rfl, ?_⟩
      intro r
      apply backsub_zero
      intro r'
      exact spa_B1prime_zero n1 1 _ hc (fun _ _ => rfl) a r'
    · exact absurd (spa_A21_zero n1 1 _ (fun _ _ => rfl)) h2
    · exact absurd ⟨rfl, rfl, rfl, rfl, rfl, rfl⟩ h1
  obtain ⟨C1, heq, hzero⟩ := hkey
  have hscan : getInitialPeaksQ es sqrtFn resE lldE u u = .ok [] := by
    unfold getInitialPeaksQ scanPeaks
    obtain ⟨st', hloop, hacc, -⟩ :=
      scanLoop_flat es sqrtFn u u.length 0
        ⟨u.getD 0 0 - u.getD 0 0, u.getD 0 0 - u.getD 0 0, false, []⟩ (sub_self _)
    dsimp only
    rw [hloop]
    show Except.ok (mergePeaks resE lldE st'.acc) = Except.ok []
    rw [hacc]
    rfl
  refine ⟨?_, ?_, hscan, rfl⟩
  · rw [heq]
    rfl
  · rw [heq]
    show some (C1 i) = some 0
    rw [hzero i]

/-- C7 witness: a 2-channel all-zero spectrum with an empty peak list is
solved without error into an all-zero continuum and an empty peak list. -/
theorem solve_empty_peaks_degenerate_witness :
    solvePeaksOut (spaSolve 2 (fun _ => 0) [] 0 1 (fun _ => 1) (fun _ => 0)) = some []
    ∧ solveBaselineAt (spaSolve 2 (fun _ => 0) [] 0 1 (fun _ => 1) (fun _ => 0)) 0 = some 0
    ∧ getInitialPeaksQ ⟨[0, 1, 2]⟩ (fun q => q) (fun _ => 1) 45 [0, 0] [0, 0] = .ok []
    ∧ addNeighborPeaksQ (fun _ => (1 : ℚ)) [] = [] :=
  solve_empty_peaks_degenerate 2 0 1 (fun _ => 1) (fun _ => 1) (fun _ => 0)
    (fun _ => 0) (fun _ => rfl) 0 ⟨[0, 1, 2]⟩ (fun q => q) [0, 0] 45

/-- C6: `GaussianSensorModel.getResolution` NEVER raises: the guard
`np.any(energy) < 0` compares a boolean truth value (0 or 1) with 0 and is
always false, so even a negative energy — which the raise statement and the
spec intend to reject — flows through to the power expression. -/
theorem getResolution_never_raises (A B C e : ℝ) :
    getResolutionModel A B C e = .ok ((A + B * e) ^ C) := by
  unfold getResolutionModel
  have hguard : ¬ ((@ite ℤ (e ≠ 0) (Classical.propDecidable _) 1 0) < 0) := by
    by_cases h : e ≠ 0
    · rw [if_pos h]
      norm_num
    · rw [if_neg h]
      norm_num
  rw [if_neg hguard]

/-- A non-skipped singleton contributes exactly its Gaussian integral. -/
theorem roiIntensity_single (er : ℝ → ℝ) (pk : RPeak) (a1 a2 : ℝ)
    (hnot : ¬ roiSkip pk a1 a2) :
    roiIntensity er [pk] a1 a2 = roiContribution er pk a1 a2 := by
  unfold roiIntensity
  simp only [List.foldl]
  rw [if_neg hnot, zero_add]

/-- A skipped singleton contributes nothing. -/
theorem roiIntensity_single_skip (er : ℝ → ℝ) (pk : RPeak) (a1 a2 : ℝ)
    (hq : roiSkip pk a1 a2) :
    roiIntensity er [pk] a1 a2 = 0 := by
  unfold roiIntensity
  simp only [List.foldl]
  rw [if_pos hq]

/-- The skip guards select exactly the peaks within four widths of the
region. -/
theorem roiSkip_iff (p : RPeak) (e1 e2 : ℝ) (hw : 0 < p.width) :
    ¬ roiSkip p e1 e2 ↔
      e1 - 4 * p.width ≤ p.energy ∧ p.energy ≤ e2 + 4 * p.width := by
  unfold roiSkip
  push_neg
  constructor
  · rintro ⟨h1, h2⟩
    constructor
    · by_cases hlt : p.energy < e1
      · have h3 := h2 hlt
        rw [div_le_iff hw] at h3
        linarith
      · push_neg at hlt
        linarith
    · by_cases hgt : p.energy > e2
      · have h3 := h1 hgt
        rw [div_le_iff hw] at h3
        linarith
      · push_neg at hgt
        linarith
  · rintro ⟨hb1, hb2⟩
    constructor
    · intro _
      rw [div_le_iff hw]
      linarith
    · intro _
      rw [div_le_iff hw]
      linarith

/-- An odd function vanishes at zero. -/
theorem er_zero_of_odd (er : ℝ → ℝ) (hodd : ∀ x, er (-x) = -er x) :
    er 0 = 0 := by
  have h := hodd 0
  rw [neg_zero] at h
  linarith

/-- C5: `getRegionOfInterest` includes exactly the peaks within four widths
of `[lower, upper]`; each included peak contributes
`intensity/2 · (erf((upper-e)/(width·sqrt 2)) - erf((lower-e)/(width·sqrt 2)))`;
for a single peak at `(600, 1, 10)` the region `[590, 610)` yields intensity
`erf(1/sqrt 2)`, and as the upper bound of the region `[600, ·)` grows
without bound the intensity tends to `1/2`.  The error function enters only
through its oddness and its limit 1 at infinity, so it is abstracted as a
parameter `er` with those two properties. -/
theorem roi_integral_correct (er : ℝ → ℝ)
    (hodd : ∀ x, er (-x) = -er x)
    (htop : Filter.Tendsto er Filter.atTop (nhds 1))
    (p : RPeak) (e1 e2 : ℝ) (hw : 0 < p.width)
    (hpin : ¬ roiSkip p e1 e2)
    (q : RPeak) (f1 f2 : ℝ) (hq : roiSkip q f1 f2) :
    (¬ roiSkip p e1 e2 ↔
        e1 - 4 * p.width ≤ p.energy ∧ p.energy ≤ e2 + 4 * p.width)
    ∧ roiIntensity er [p] e1 e2 =
        p.intensity / 2 * (er ((e2 - p.energy) / (p.width * Real.sqrt 2))
          - er ((e1 - p.energy) / (p.width * Real.sqrt 2)))
    ∧ roiIntensity er [q] f1 f2 = 0
    ∧ roiIntensity er [⟨600, 1, 10⟩] 590 610 = er (1 / Real.sqrt 2)
    ∧ Filter.Tendsto (fun b => roiIntensity er [⟨600, 1, 10⟩] 600 b)
        Filter.atTop (nhds (1 / 2)) := by
  refine ⟨roiSkip_iff p e1 e2 hw, ?_, roiIntensity_single_skip er q f1 f2 hq, ?_, ?_⟩
  · rw [roiIntensity_single er p e1 e2 hpin]
    unfold roiContribution
    rw [div_div, div_div]
    ring
  · have hnot : ¬ roiSkip ⟨600, 1, 10⟩ 590 610 := by
      unfold roiSkip
      push_neg
      constructor
      · intro h
        norm_num at h
      · intro h
        norm_num at h
    rw [roiIntensity_single er ⟨600, 1, 10⟩ 590 610 hnot]
    show (er ((610 - 600) / 10 / Real.sqrt 2) - er ((590 - 600) / 10 / Real.sqrt 2))
        * 1 / 2 = _
    have h1 : ((610 : ℝ) - 600) / 10 / Real.sqrt 2 = 1 / Real.sqrt 2 := by
      norm_num
    have h2 : ((590 : ℝ) - 600) / 10 / Real.sqrt 2 = -(1 / Real.sqrt 2) := by
      rw [show ((590 : ℝ) - 600) = -10 by norm_num]
      rw [neg_div, neg_div]
      norm_num
    rw [h1, h2, hodd (1 / Real.sqrt 2)]
    ring
  · have hev : (fun b => er ((b - 600) / 10 / Real.sqrt 2) * (1 / 2))
        =ᶠ[Filter.atTop] (fun b => roiIntensity er [⟨600, 1, 10⟩] 600 b) := by
      filter_upwards [Filter.eventually_ge_atTop (600 : ℝ)] with b hb
      have hnot : ¬ roiSkip ⟨600, 1, 10⟩ 600 b := by
        unfold roiSkip
        push_neg
        constructor
        · intro h
          show ((600 : ℝ) - b) / 10 ≤ 4
          exact absurd h (by exact not_lt.mpr hb)
        · intro h
          exact absurd h (lt_irrefl _)
      rw [roiIntensity_single er ⟨600, 1, 10⟩ 600 b hnot]
      show _ = (er ((b - 600) / 10 / Real.sqrt 2) - er ((600 - 600) / 10 / Real.sqrt 2))
          * 1 / 2
      rw [show ((600 : ℝ) - 600) / 10 / Real.sqrt 2 = 0 by norm_num]
      rw [er_zero_of_odd er hodd]
      ring
    have harg : Filter.Tendsto (fun b : ℝ => (b - 600) / 10 / Real.sqrt 2)
        Filter.atTop Filter.atTop := by
      apply Filter.Tendsto.atTop_div_const (by positivity : (0 : ℝ) < Real.sqrt 2)
      apply Filter.Tendsto.atTop_div_const (by norm_num : (0 : ℝ) < 10)
      exact Filter.tendsto_atTop_add_const_right _ (-600)
        Filter.tendsto_id |>.congr (fun b => by simp [sub_eq_add_neg, add_comm])
    have hmul : Filter.Tendsto (fun b => er ((b - 600) / 10 / Real.sqrt 2) * (1 / 2))
        Filter.atTop (nhds (1 * (1 / 2))) :=
      Filter.Tendsto.mul_const _ (htop.comp harg)
    rw [one_mul] at hmul
    exact Filter.Tendsto.congr' hev hmul

/-- C5 witness: the bounded odd function `x / (1 + |x|)`, which tends to 1
at infinity, instantiates the abstract error function; the peak
`(600, 1, 10)` is included in `[590, 610)` and the far-away peak
`(1000, 1, 10)` is excluded from `[0, 10)`. -/
theorem roi_integral_correct_witness :
    (¬ roiSkip ⟨600, 1, 10⟩ 590 610 ↔
        (590 : ℝ) - 4 * (10 : ℝ) ≤ 600 ∧ (600 : ℝ) ≤ 610 + 4 * 10)
    ∧ roiIntensity (fun x => x / (1 + |x|)) [⟨600, 1, 10⟩] 590 610 =
        (1 : ℝ) / 2 * ((fun x => x / (1 + |x|)) ((610 - 600) / (10 * Real.sqrt 2))
          - (fun x => x / (1 + |x|)) ((590 - 600) / (10 * Real.sqrt 2)))
    ∧ roiIntensity (fun x => x / (1 + |x|)) [⟨1000, 1, 10⟩] 0 10 = 0
    ∧ roiIntensity (fun x => x / (1 + |x|)) [⟨600, 1, 10⟩] 590 610 =
        (fun x => x / (1 + |x|)) (1 / Real.sqrt 2)
    ∧ Filter.Tendsto
        (fun b => roiIntensity (fun x => x / (1 + |x|)) [⟨600, 1, 10⟩] 600 b)
        Filter.atTop (nhds (1 / 2)) := by
  have hodd : ∀ x : ℝ, (fun x => x / (1 + |x|)) (-x) = -(fun x => x / (1 + |x|)) x := by
    intro x
    show (-x) / (1 + |(-x)|) = -(x / (1 + |x|))
    rw [abs_neg, neg_div]
  have htop : Filter.Tendsto (fun x : ℝ => x / (1 + |x|)) Filter.atTop (nhds 1) := by
    have hinv : Filter.Tendsto (fun x : ℝ => 1 - 1 / (1 + x)) Filter.atTop (nhds 1) := by
      have h0 : Filter.Tendsto (fun x : ℝ => 1 / (1 + x)) Filter.atTop (nhds 0) := by
        simp only [one_div]
        exact tendsto_inv_atTop_zero.comp
          (Filter.tendsto_atTop_add_const_left _ 1 Filter.tendsto_id)
      have h1 := Filter.Tendsto.sub (tendsto_const_nhds : Filter.Tendsto
        (fun _ : ℝ => (1 : ℝ)) Filter.atTop (nhds 1)) h0
      rw [sub_zero] at h1
      exact h1
    apply Filter.Tendsto.congr' _ hinv
    filter_upwards [Filter.eventually_ge_atTop (0 : ℝ)] with x hx
    have hne : (1 : ℝ) + x ≠ 0 := by positivity
    rw [abs_of_nonneg hx]
    field_simp
  have hpin : ¬ roiSkip ⟨600, 1, 10⟩ 590 610 := by
    unfold roiSkip
    push_neg
    constructor
    · intro h
      norm_num at h
    · intro h
      norm_num at h
  have hq : roiSkip ⟨1000, 1, 10⟩ 0 10 := by
    unfold roiSkip
    left
    constructor
    · norm_num
    · norm_num
  have h := roi_integral_correct (fun x => x / (1 + |x|)) hodd htop
    ⟨600, 1, 10⟩ 590 610 (by norm_num) hpin ⟨1000, 1, 10⟩ 0 10 hq
  exact h

end Barni
